import Mathlib

/-!
Verification of the PIXEstL palette/mesh pipeline (Rust sources under
`src/rust/src`).  Every definition below is a shallow embedding of the
corresponding Rust item; `f64` arithmetic is modelled exactly over `ℚ`
(every quantity appearing in the verified computations is a ratio of small
integers, so the `f64` evaluation agrees with the exact rational one),
machine integers are modelled as `ℕ`/`ℤ`, and Rust panics are modelled by
`Option`/`Except` results (`none` = panic).
-/

namespace PixEstl

/-! ## Color kernel (`src/rust/src/color`) -/

/-- `Rgb` (`color/rgb.rs`): 8-bit channels. -/
structure Rgb where
  r : Fin 256
  g : Fin 256
  b : Fin 256
  deriving DecidableEq, Repr

/-- `Cmyk` (`color/mod.rs`): four `f64` channels, modelled as exact rationals. -/
structure Cmyk where
  c : ℚ
  m : ℚ
  y : ℚ
  k : ℚ
  deriving DecidableEq, Repr

/-- `Cmyk::new` (`color/mod.rs`). -/
def Cmyk.new (c m y k : ℚ) : Cmyk := ⟨c, m, y, k⟩

/-- Clamp a rational to an interval, `f64::clamp`. -/
def qclamp (x lo hi : ℚ) : ℚ := max lo (min x hi)

/-- `Cmyk::clamp` (`color/mod.rs`): clamp every channel to `[0,1]`. -/
def Cmyk.clamp (x : Cmyk) : Cmyk :=
  ⟨qclamp x.c 0 1, qclamp x.m 0 1, qclamp x.y 0 1, qclamp x.k 0 1⟩

/-- Rust `f64::round`: round half away from zero. -/
def rustRound (q : ℚ) : ℤ :=
  if 0 ≤ q then ⌊q + 1/2⌋ else -⌊-q + 1/2⌋

/-- Conversion `as u8` after a `clamp(0.0, 255.0)`: the value is already in
`[0,255]`, so the cast is exact; we clamp on `ℤ` and take the residue. -/
def toChannel (z : ℤ) : Fin 256 :=
  ⟨((max 0 (min z 255)).toNat % 256), Nat.mod_lt _ (by norm_num)⟩

/-- `Rgb::to_f64` (`color/rgb.rs`): normalized channels. -/
def Rgb.toF64 (x : Rgb) : ℚ × ℚ × ℚ :=
  ((x.r.val : ℚ) / 255, (x.g.val : ℚ) / 255, (x.b.val : ℚ) / 255)

/-- `Rgb::from_f64` (`color/rgb.rs`): `(q * 255).round().clamp(0, 255) as u8`. -/
def Rgb.fromF64 (r g b : ℚ) : Rgb :=
  ⟨toChannel (rustRound (r * 255)), toChannel (rustRound (g * 255)),
    toChannel (rustRound (b * 255))⟩

/-- `Rgb::to_cmyk` (`color/rgb.rs` lines 98-113). -/
def Rgb.toCmyk (x : Rgb) : Cmyk :=
  let f := x.toF64
  let r := f.1
  let g := f.2.1
  let b := f.2.2
  let k := 1 - max (max r g) b
  if k < 1 then
    Cmyk.new ((1 - r - k) / (1 - k)) ((1 - g - k) / (1 - k)) ((1 - b - k) / (1 - k)) k
  else
    Cmyk.new 0 0 0 k

/-- `Rgb::from_cmyk` (`color/rgb.rs` lines 119-127). -/
def Rgb.fromCmyk (x : Cmyk) : Rgb :=
  let x := x.clamp
  Rgb.fromF64 ((1 - x.c) * (1 - x.k)) ((1 - x.m) * (1 - x.k)) ((1 - x.y) * (1 - x.k))

/-! ## Window clip (`src/rust/src/lithophane/color_layer.rs` lines 199-238)

The Rust signature takes `offset : i32` and `layer_max : i32` and immediately
casts them to `usize`; the caller guards the `-1` sentinel, so the function is
exercised on non-negative values, which we model as `ℕ` (all other arithmetic
in the body is `usize`/`u32` with the same truncated subtraction as `ℕ`). -/

/-- `apply_layer_offset`: clip the span `[layerBefore, layerBefore+layerHeight)`
to the window `[offset, offset+layerMax)`, returning `(height, base)`. -/
def applyLayerOffset (layerHeight layerBefore offset layerMax : ℕ) : ℕ × ℕ :=
  if layerBefore ≥ offset + layerMax then
    (0, 0)
  else if layerBefore < offset then
    if layerBefore + layerHeight < offset then
      (0, 0)
    else
      let delta := offset - layerBefore
      let newHeight := layerHeight - delta
      if newHeight > layerMax then (layerMax, 0) else (newHeight, 0)
  else
    let newBefore := layerBefore - offset
    if layerHeight + newBefore > layerMax then
      (layerHeight - (layerHeight + newBefore - layerMax), newBefore)
    else
      (layerHeight, newBefore)

/-! ## Color distance and nearest-color search (`src/rust/src/color/distance.rs`)

The CIELab branch computes `ΔE(Lab(target), Lab(color))` in `f64` (cube roots
and powers, not exactly representable); we keep that composite distance as an
explicit parameter `labDist` of the search, while the RGB branch is the exact
integer computation of the source.  `f64::MAX`, the initial value of
`min_distance`, is the exact rational below. -/

/-- `ColorDistanceMethod` (`color/distance.rs`). -/
inductive ColorDistanceMethod where
  | Rgb
  | CieLab
  deriving DecidableEq, Repr

/-- RGB squared euclidean distance (`impl ColorDistance for Rgb`): exact
integer arithmetic converted to `f64`. -/
def rgbDist (a b : Rgb) : ℚ :=
  ((((a.r.val : ℤ) - b.r.val) ^ 2 + ((a.g.val : ℤ) - b.g.val) ^ 2 +
    ((a.b.val : ℤ) - b.b.val) ^ 2 : ℤ) : ℚ)

/-- The exact value of `f64::MAX`, i.e. `(2^53 - 1) * 2^971`, written as a
numeral (see `fMAX_eq`). -/
def fMAX : ℚ := 179769313486231570814527423731704356798070567525844996598917476803157260780028538760589558632766878171540458953514382464234321326889464182768467546703537516986049910576551282076245490090389328944075868508455133942304583236903222948165808559332123348274797826204144723168738177180919299881250404026184124858368

/-- The metric selected by `match method` in `find_closest_color`. -/
def metricOf (labDist : Rgb → Rgb → ℚ) : ColorDistanceMethod → Rgb → Rgb → ℚ
  | ColorDistanceMethod.Rgb => rgbDist
  | ColorDistanceMethod.CieLab => labDist

/-- One iteration of the scan loop shared by `find_closest_rgb` and
`find_closest_cielab`: update `(min_distance, closest)` when strictly closer. -/
def scanStep (d : Rgb → Rgb → ℚ) (target : Rgb) (st : ℚ × Rgb) (c : Rgb) : ℚ × Rgb :=
  if d target c < st.1 then (d target c, c) else st

/-- The linear scan of `find_closest_rgb` / `find_closest_cielab`:
`closest` starts at `colors[0]` (indexing panics on an empty list, modelled by
`none`; both callers guard emptiness), `min_distance` starts at `f64::MAX`,
and the loop visits every element. -/
def findClosestScan (d : Rgb → Rgb → ℚ) (target : Rgb) : List Rgb → Option Rgb
  | [] => none
  | c0 :: rest => some (((c0 :: rest).foldl (scanStep d target) (fMAX, c0)).2)

/-- `find_closest_color` (`color/distance.rs` lines 100-118): empty palette is
an `InvalidPalette` error, otherwise dispatch on the method and scan. -/
def findClosestColor (labDist : Rgb → Rgb → ℚ) (target : Rgb) (colors : List Rgb)
    (method : ColorDistanceMethod) : Except String Rgb :=
  match findClosestScan (metricOf labDist method) target colors with
  | none => Except.error "Color list cannot be empty"
  | some c => Except.ok c

/-- `find_closest_color_precomputed` (`color/distance.rs` lines 124-140): same
computation, with the palette Lab values precomputed by the caller (absorbed
into `labDist`). -/
def findClosestColorPrecomputed (labDist : Rgb → Rgb → ℚ) (target : Rgb)
    (colors : List Rgb) (method : ColorDistanceMethod) : Except String Rgb :=
  findClosestColor labDist target colors method

/-! ## Quantizer (`src/rust/src/palette/quantize.rs`)

`quantize_pixels` returns `Ok` with the input unchanged on an empty palette;
otherwise it maps every pixel through the precomputed search, with
`.expect("palette is non-empty")` panicking on an inner error (modelled by
`none`).  Row-parallelism is pure, so the parallel map is an ordinary map. -/

/-- `quantize_pixels` (`palette/quantize.rs` lines 41-63). -/
def quantizePixels (labDist : Rgb → Rgb → ℚ) (pixels paletteColors : List Rgb)
    (method : ColorDistanceMethod) : Option (List Rgb) :=
  if paletteColors.isEmpty then
    some pixels
  else
    pixels.mapM fun p =>
      (findClosestColorPrecomputed labDist p paletteColors method).toOption

/-- `quantize_image` (`palette/quantize.rs` lines 78-104): row-major 2D variant. -/
def quantizeImage (labDist : Rgb → Rgb → ℚ) (imageData : List (List Rgb))
    (paletteColors : List Rgb) (method : ColorDistanceMethod) :
    Option (List (List Rgb)) :=
  if paletteColors.isEmpty then
    some imageData
  else
    imageData.mapM fun row =>
      row.mapM fun p =>
        (findClosestColorPrecomputed labDist p paletteColors method).toOption

/-! ## Palette model (`src/rust/src/palette/color_layer.rs`, `color_combi.rs`) -/

/-- `ColorLayer` (`palette/color_layer.rs`): a filament hex code, a printed
layer count (`u32`), and the measured CMYK. -/
structure ColorLayer where
  hexCode : String
  layer : ℕ
  cmyk : Cmyk
  deriving DecidableEq, Repr

/-- `ColorLayer::from_cmyk`. -/
def ColorLayer.fromCmyk (hexCode : String) (layer : ℕ) (c m y k : ℚ) : ColorLayer :=
  ⟨hexCode, layer, Cmyk.new c m y k⟩

/-- `ColorLayer::combine_with` (`palette/color_layer.rs` lines 130-145): the
two `assert_eq!` checks panic (modelled by `none`) unless hex code and CMYK
agree; otherwise the layer counts add. -/
def ColorLayer.combineWith (a b : ColorLayer) : Option ColorLayer :=
  if a.hexCode = b.hexCode ∧ a.cmyk = b.cmyk then
    some ⟨a.hexCode, a.layer + b.layer, a.cmyk⟩
  else
    none

/-- `ColorCombi` (`palette/color_combi.rs`): an ordered stack of layers. -/
structure ColorCombi where
  layers : List ColorLayer
  deriving DecidableEq, Repr

/-- `ColorCombi::new`: a singleton stack (the source sorts the one-element
list by descending K, a no-op). -/
def ColorCombi.new (l : ColorLayer) : ColorCombi := ⟨[l]⟩

/-- `ColorCombi::total_colors`: number of layer entries. -/
def ColorCombi.totalColors (c : ColorCombi) : ℕ := c.layers.length

/-- `ColorCombi::total_layers`: sum of the layer counts. -/
def ColorCombi.totalLayers (c : ColorCombi) : ℕ :=
  (c.layers.map ColorLayer.layer).sum

/-- `ColorCombi::combine_with_layer` (`palette/color_combi.rs` lines 44-59):
`None` when the hex code is already present or the budget would overflow,
otherwise append. -/
def ColorCombi.combineWithLayer (c : ColorCombi) (l : ColorLayer) (nbLayerMax : ℕ) :
    Option ColorCombi :=
  if c.layers.any fun x => x.hexCode = l.hexCode then
    none
  else if c.totalLayers + l.layer > nbLayerMax then
    none
  else
    some ⟨c.layers ++ [l]⟩

/-- `ColorCombi::combine_with_combi` (lines 65-69): concatenation. -/
def ColorCombi.combineWithCombi (c d : ColorCombi) : ColorCombi :=
  ⟨c.layers ++ d.layers⟩

/-- `ColorCombi::compute_rgb` (lines 100-117): sum the per-layer CMYK
channels, cap each at `1.0`, convert back to RGB. -/
def ColorCombi.computeRgb (c : ColorCombi) : Rgb :=
  let s := c.layers.foldl
    (fun (st : ℚ × ℚ × ℚ × ℚ) l =>
      (st.1 + l.cmyk.c, st.2.1 + l.cmyk.m, st.2.2.1 + l.cmyk.y, st.2.2.2 + l.cmyk.k))
    (0, 0, 0, 0)
  Rgb.fromCmyk (Cmyk.new (min s.1 1) (min s.2.1 1) (min s.2.2.1 1) (min s.2.2.2 1))

/-- The loop of `ColorCombi::factorize` (lines 138-164), with the nonempty
accumulator `new_layers` split as `done ++ [last]`: an incoming layer with the
same hex code as `last` is merged into it via `combine_with` (which can
panic), otherwise it starts a new entry. -/
def factorizeAux (done : List ColorLayer) (last : ColorLayer) :
    List ColorLayer → Option (List ColorLayer)
  | [] => some (done ++ [last])
  | l :: ls =>
    if last.hexCode = l.hexCode then
      (last.combineWith l).bind fun m => factorizeAux done m ls
    else
      factorizeAux (done ++ [last]) l ls

/-- `ColorCombi::factorize`: an empty combi is returned unchanged. -/
def ColorCombi.factorize (c : ColorCombi) : Option ColorCombi :=
  match c.layers with
  | [] => some c
  | l :: ls => (factorizeAux [] l ls).map ColorCombi.mk

/-- The factorization described by the spec (section 4.3.3): walk the
sequence once and fold each run of equal-hex neighbors into a single layer
with summed layer count (`cur` carries the run being folded, keeping the
first layer's CMYK). -/
def specWalk (done : List ColorLayer) (cur : ColorLayer) :
    List ColorLayer → List ColorLayer
  | [] => done ++ [cur]
  | l :: ls =>
    if cur.hexCode = l.hexCode then
      specWalk done ⟨cur.hexCode, cur.layer + l.layer, cur.cmyk⟩ ls
    else
      specWalk (done ++ [cur]) l ls

/-- Spec-side factorization of a layer sequence. -/
def specFactorize : List ColorLayer → List ColorLayer
  | [] => []
  | l :: ls => specWalk [] l ls

/-- State of the `optimize_white_layers` loop (lines 220-244): the three
buckets plus the running flat-position counter. -/
def owlStep (nbColorPool : ℕ)
    (st : List ColorLayer × List ColorLayer × List ColorLayer × ℕ)
    (l : ColorLayer) : List ColorLayer × List ColorLayer × List ColorLayer × ℕ :=
  let (bottom, middle, top, cnt) := st
  if l.hexCode = "#FFFFFF" then
    if cnt ≤ nbColorPool then (bottom ++ [l], middle, top, cnt + l.layer)
    else (bottom, middle, top ++ [l], cnt + l.layer)
  else
    (bottom, middle ++ [l], top, cnt + l.layer)

/-- `ColorCombi::optimize_white_layers` (lines 220-244): split into
bottom-white / colored / top-white and reassemble (the `_nb_layers` argument
is unused in the source). -/
def ColorCombi.optimizeWhiteLayers (c : ColorCombi) (nbColorPool : ℕ) : ColorCombi :=
  let st := c.layers.foldl (owlStep nbColorPool) ([], [], [], 0)
  ⟨st.1 ++ st.2.1 ++ st.2.2.1⟩

/-! ## Combination generator (`src/rust/src/palette/generator.rs`)

`compute_combination` recurses with the *full* layer list: the only use of
the loop index `i` is the `i + 1 < color_layers.len()` test deciding whether
to recurse at all.  Recursion depth is bounded because the combination grows
by one distinct-hex layer per level and the `total_colors >= len` check
breaks the loop; we realize the recursion with an explicit fuel argument
(structural, so it evaluates) and prove below (`computeCombination_fuel_succ`)
that any fuel at least `len - total_colors` gives the same result, so the
fuel `layers.length` used by `createMultiCombi` is never exhausted. -/

/-- The admissibility test `restrict_colors.contains(hex)` (a `continue`
otherwise). -/
def layerAdmissible (restrict : Option (List String)) (l : ColorLayer) : Bool :=
  match restrict with
  | none => true
  | some r => r.contains l.hexCode

/-- The loop body of `compute_combination` (`generator.rs` lines 86-123) over
the remaining enumerated candidates; `recurse` is the recursive call at one
less fuel. -/
def ccLoop (restrict : Option (List String)) (layers : List ColorLayer) (H : ℕ)
    (recurse : ColorCombi → List ColorCombi) (cur : ColorCombi) :
    List (ℕ × ColorLayer) → List ColorCombi
  | [] => []
  | (i, l) :: rest =>
    if ¬ layerAdmissible restrict l then
      ccLoop restrict layers H recurse cur rest
    else if cur.totalLayers + l.layer > H then
      ccLoop restrict layers H recurse cur rest
    else if cur.totalColors ≥ layers.length then
      []
    else
      match cur.combineWithLayer l H with
      | none => ccLoop restrict layers H recurse cur rest
      | some nc =>
        (if nc.totalLayers = H then [nc] else []) ++
          (if i + 1 < layers.length then recurse nc else []) ++
          ccLoop restrict layers H recurse cur rest

/-- `compute_combination` (`generator.rs` lines 78-126), with fuel. -/
def computeCombination (restrict : Option (List String)) (layers : List ColorLayer)
    (H : ℕ) : ℕ → ColorCombi → List ColorCombi
  | 0, _ => []
  | fuel + 1, cur =>
    ccLoop restrict layers H (computeCombination restrict layers H fuel) cur layers.enum

/-- The loop of `create_multi_combi` (`generator.rs` lines 37-55): push the
singleton base combi, then the recursive expansions when `i+1 < len`. -/
def cmcLoop (restrict : Option (List String)) (layers : List ColorLayer) (H : ℕ) :
    List (ℕ × ColorLayer) → List ColorCombi
  | [] => []
  | (i, l) :: rest =>
    if ¬ layerAdmissible restrict l then
      cmcLoop restrict layers H rest
    else
      ColorCombi.new l ::
        ((if i + 1 < layers.length then
            computeCombination restrict layers H layers.length (ColorCombi.new l)
          else []) ++
          cmcLoop restrict layers H rest)

/-- `create_multi_combi` (`generator.rs` lines 30-62): run the loop, then keep
only the combinations with exactly the target layer count. -/
def createMultiCombi (restrict : Option (List String)) (layers : List ColorLayer)
    (H : ℕ) : List ColorCombi :=
  (cmcLoop restrict layers H layers.enum).filter fun c => c.totalLayers == H

/-! ## Palette loader slot grouping (`src/rust/src/palette/loader.rs`)

`compute_colors_by_group` (lines 212-298).  Failure modes modelled by `none`:
the `i / nb_color_pool` group-index division panics when the divisor is zero
and the working list is nonempty, and `color_combi_list_list[0]` panics when
no group was created; `factorize` can panic through `combine_with`. -/

/-- `PixelCreationMethod` (`loader.rs`). -/
inductive PixelCreationMethod where
  | Additive
  | Full
  deriving DecidableEq, Repr

/-- `PaletteLoaderConfig` (`loader.rs`). -/
structure PaletteLoaderConfig where
  nbLayers : ℕ
  creationMethod : PixelCreationMethod
  colorNumber : ℕ
  distanceMethod : ColorDistanceMethod
  deriving DecidableEq, Repr

/-- `HashMap::insert` on the RGB-to-combi map, modelled as an association
list with unique keys: replace the binding if the key is present, else
append. -/
def insertAssoc (m : List (Rgb × ColorCombi)) (k : Rgb) (v : ColorCombi) :
    List (Rgb × ColorCombi) :=
  if m.any fun p => p.1 = k then
    m.map fun p => if p.1 = k then (k, v) else p
  else
    m ++ [(k, v)]

/-- The progressive cross-group product (`loader.rs` lines 264-276): the last
entry of `temp_color_combi_list` is the fold of the pairwise product over the
remaining groups. -/
def progressiveCombine (acc : List ColorCombi) :
    List (List ColorCombi) → List ColorCombi
  | [] => acc
  | g :: gs =>
    progressiveCombine (acc.flatMap fun a => g.map fun b => a.combineWithCombi b) gs

/-- The working list: the active hex codes with white removed (`loader.rs`
lines 219-223). -/
def workingHexOf (hexColorList : List String) : List String :=
  hexColorList.filter fun h => !(h == "#FFFFFF")

/-- `nb_color_pool` (`loader.rs` lines 226-231): `color_number - 1`
(saturating) in additive mode with a caller-supplied count, else the working
list length. -/
def nbColorPoolOf (cfg : PaletteLoaderConfig) (workingHexList : List String) : ℕ :=
  if cfg.creationMethod = PixelCreationMethod.Additive ∧ cfg.colorNumber > 0 then
    cfg.colorNumber - 1
  else
    workingHexList.length

/-- `nb_groups` (`loader.rs` lines 234-238): `⌈len/pool⌉` when the pool is
positive, otherwise 1. -/
def nbGroupsOf (nbColorPool : ℕ) (workingHexList : List String) : ℕ :=
  if nbColorPool > 0 then
    (workingHexList.length + nbColorPool - 1) / nbColorPool
  else 1

/-- The filled slot groups with white appended (`loader.rs` lines 241-253):
hex `i` lands in bucket `i / nb_color_pool` (the source guard
`group_idx < len` never drops an entry for a positive pool). -/
def hexColorGroupsOf (nbColorPool nbGroups : ℕ) (workingHexList : List String) :
    List (List String) :=
  (List.range nbGroups).map fun g =>
    ((workingHexList.enum.filter fun p => p.1 / nbColorPool == g).map Prod.snd) ++
      ["#FFFFFF"]

/-- `PaletteLoader::compute_colors_by_group` (`loader.rs` lines 212-298),
returning the number of groups and the final RGB-to-combi map (`none` models
the panics: the `i / nb_color_pool` division by zero during the group fill,
the `color_combi_list_list[0]` indexing with no groups, and the
`combine_with` assertion inside `factorize`); `init_hex_color_group_list`
does not touch the map and is omitted. -/
def computeColorsByGroup (colorLayers : List ColorLayer) (hexColorList : List String)
    (cfg : PaletteLoaderConfig) : Option (ℕ × List (Rgb × ColorCombi)) :=
  let workingHexList := workingHexOf hexColorList
  let nbColorPool := nbColorPoolOf cfg workingHexList
  let nbGroups := nbGroupsOf nbColorPool workingHexList
  if nbColorPool = 0 ∧ workingHexList ≠ [] then
    none
  else
    match (hexColorGroupsOf nbColorPool nbGroups workingHexList).map
        (fun grp => createMultiCombi (some grp) colorLayers cfg.nbLayers) with
    | [] => none
    | first :: restGroups =>
      (progressiveCombine first restGroups |>.mapM ColorCombi.factorize).map
        fun factored =>
          (nbGroups,
            (factored.foldl (fun m c => insertAssoc m c.computeRgb c) []).map
              fun p => (p.1, (p.2).optimizeWhiteLayers nbColorPool))

/-! ## Binary STL serialization (`src/rust/src/stl/mod.rs`)

Vertex coordinates are `f64` truncated to `f32` for output; the IEEE-754
encoding itself is irrelevant to every property proved here, so the 4-byte
little-endian `f32` encoder is a parameter `enc`, and the triangle normal
(`Triangle::normal`, a cross product normalized with an `f64` square root) is
a parameter `normalOf`; both only feed `enc`. -/

/-- `Vector3` (`lithophane/geometry.rs`). -/
structure Vector3 where
  x : ℚ
  y : ℚ
  z : ℚ
  deriving DecidableEq, Repr

/-- `Triangle` (`lithophane/geometry.rs`): three vertices. -/
structure Triangle where
  v0 : Vector3
  v1 : Vector3
  v2 : Vector3
  deriving DecidableEq, Repr

/-- `Mesh` (`lithophane/geometry.rs`): a triangle soup. -/
structure Mesh where
  triangles : List Triangle
  deriving DecidableEq, Repr

/-- `u32::to_le_bytes` of `len as u32`: four little-endian bytes of the
truncated count. -/
def u32leBytes (n : ℕ) : List ℕ :=
  [n % 256, n / 256 % 256, n / 2 ^ 16 % 256, n / 2 ^ 24 % 256]

/-- The 80-byte header of `write_binary_stl` (lines 56-60): the name bytes,
truncated to 80, over a zero-filled buffer. -/
def stlHeader (nameBytes : List ℕ) : List ℕ :=
  nameBytes.take 80 ++ List.replicate (80 - (nameBytes.take 80).length) 0

/-- `write_f32_vec3` (lines 81-86): three encoded `f32` values. -/
def writeF32Vec3 (enc : ℚ → List ℕ) (v : Vector3) : List ℕ :=
  enc v.x ++ enc v.y ++ enc v.z

/-- `write_binary_triangle` (`stl/mod.rs` lines 71-79): normal, three
vertices, and the zero `u16` attribute count. -/
def writeBinaryTriangle (enc : ℚ → List ℕ) (normalOf : Triangle → Vector3)
    (t : Triangle) : List ℕ :=
  writeF32Vec3 enc (normalOf t) ++ writeF32Vec3 enc t.v0 ++
    writeF32Vec3 enc t.v1 ++ writeF32Vec3 enc t.v2 ++ [0, 0]

/-- `write_binary_stl` (`stl/mod.rs` lines 55-69): header, triangle count,
then every triangle record. -/
def writeBinaryStl (enc : ℚ → List ℕ) (normalOf : Triangle → Vector3)
    (mesh : Mesh) (nameBytes : List ℕ) : List ℕ :=
  stlHeader nameBytes ++ u32leBytes mesh.triangles.length ++
    (mesh.triangles.map (writeBinaryTriangle enc normalOf)).flatten

/-! ## Theorems: window clip (C4) -/

/-- Claim C4: the window clip `apply_layer_offset` of a layer spanning
`[b, b+h)` against the window `[o, o+m)` satisfies the contract: `(0,0)` when
the layer is above the window (`b ≥ o+m`) or below it (`b < o` and
`b + h < o`); when `b < o ≤ b + h` the height becomes `h - (o - b)` clamped
to `m` with base `0`; when `o ≤ b < o + m` the base becomes `b - o` and the
height is reduced by the overflow past `m`; in particular an exact fit
(`b = o`, `h = m`) yields `(h, 0)`. -/
theorem applyLayerOffset_contract (h b o m : ℕ) :
    (o + m ≤ b → applyLayerOffset h b o m = (0, 0)) ∧
    (b < o → b + h < o → applyLayerOffset h b o m = (0, 0)) ∧
    (b < o → o ≤ b + h → applyLayerOffset h b o m = (min (h - (o - b)) m, 0)) ∧
    (o ≤ b → b < o + m →
      applyLayerOffset h b o m = (h - (h + (b - o) - m), b - o)) ∧
    (b = o → h = m → applyLayerOffset h b o m = (h, 0)) := by
  unfold applyLayerOffset
  refine ⟨fun h1 => ?_, fun h1 h2 => ?_, fun h1 h2 => ?_, fun h1 h2 => ?_,
    fun h1 h2 => ?_⟩
  · rw [if_pos (by omega)]
  · rw [if_neg (by omega), if_pos h1, if_pos h2]
  · rw [if_neg (by omega), if_pos h1, if_neg (by omega)]
    dsimp only
    split_ifs with h3
    · refine Prod.ext ?_ rfl
      omega
    · refine Prod.ext ?_ rfl
      omega
  · rw [if_neg (by omega), if_neg (by omega)]
    dsimp only
    split_ifs with h3
    · rfl
    · refine Prod.ext ?_ rfl
      omega
  · subst h1
    subst h2
    rcases Nat.eq_zero_or_pos h with hz | hp
    · rw [if_pos (by omega)]
      rw [hz]
    · rw [if_neg (by omega), if_neg (by omega)]
      dsimp only
      rw [if_neg (by omega)]
      refine Prod.ext rfl ?_
      omega

/-- Witness for C4: concrete instances of every case of the contract. -/
theorem applyLayerOffset_contract_witness :
    applyLayerOffset 2 9 3 5 = (0, 0) ∧
    applyLayerOffset 1 0 3 5 = (0, 0) ∧
    applyLayerOffset 4 1 3 5 = (min (4 - (3 - 1)) 5, 0) ∧
    applyLayerOffset 4 6 3 5 = (4 - (4 + (6 - 3) - 5), 6 - 3) ∧
    applyLayerOffset 5 3 3 5 = (5, 0) :=
  ⟨(applyLayerOffset_contract 2 9 3 5).1 (by decide),
    (applyLayerOffset_contract 1 0 3 5).2.1 (by decide) (by decide),
    (applyLayerOffset_contract 4 1 3 5).2.2.1 (by decide) (by decide),
    (applyLayerOffset_contract 4 6 3 5).2.2.2.1 (by decide) (by decide),
    (applyLayerOffset_contract 5 3 3 5).2.2.2.2 rfl rfl⟩

/-! ## Theorems: RGB-CMYK roundtrip (C8) -/

/-- Rounding an integer-valued rational returns that integer. -/
theorem rustRound_intCast (z : ℤ) : rustRound (z : ℚ) = z := by
  unfold rustRound
  split_ifs with hz
  · rw [add_comm, Int.floor_add_int]
    norm_num
  · rw [show (-(z : ℚ) + 1/2 : ℚ) = 1/2 + (-z : ℤ) by push_cast; ring,
      Int.floor_add_int]
    norm_num

/-- A natural channel value below 256 converts to the expected `Fin 256`. -/
theorem toChannel_natCast (n : ℕ) (hn : n < 256) :
    toChannel (n : ℤ) = ⟨n, hn⟩ := by
  unfold toChannel
  apply Fin.ext
  dsimp only
  omega

/-- Clamping a value already inside the interval is the identity. -/
theorem qclamp_eq_self {x lo hi : ℚ} (h1 : lo ≤ x) (h2 : x ≤ hi) :
    qclamp x lo hi = x := by
  unfold qclamp
  rw [min_eq_left h2, max_eq_right h1]

/-- The rational maximum of the three normalized channels. -/
theorem q_max255 (rv gv bv : ℕ) :
    max (max ((rv : ℚ) / 255) ((gv : ℚ) / 255)) ((bv : ℚ) / 255)
      = ((max (max rv gv) bv : ℕ) : ℚ) / 255 := by
  rw [max_div_div_right (by norm_num : (0:ℚ) ≤ 255),
    max_div_div_right (by norm_num : (0:ℚ) ≤ 255)]
  norm_cast

/-- One output channel of the roundtrip, for `M = max(r,g,b) > 0`:
`(1 - clamp c)(1 - clamp k) · 255 = (cv/M)(M/255) · 255 = cv`. -/
theorem channel_eval (M cv : ℕ) (hMpos : 0 < M) (hM255 : M ≤ 255)
    (hcvM : cv ≤ M) (hcv : cv < 256) :
    toChannel (rustRound ((1 - qclamp ((1 - (cv : ℚ) / 255 - (1 - (M : ℚ) / 255)) /
        (1 - (1 - (M : ℚ) / 255))) 0 1) *
      (1 - qclamp (1 - (M : ℚ) / 255) 0 1) * 255)) = ⟨cv, hcv⟩ := by
  have hMQ : (0 : ℚ) < (M : ℚ) := by exact_mod_cast hMpos
  have hMne : (M : ℚ) ≠ 0 := ne_of_gt hMQ
  have hcvQ : (cv : ℚ) ≤ (M : ℚ) := by exact_mod_cast hcvM
  have hM255Q : (M : ℚ) ≤ 255 := by exact_mod_cast hM255
  have hnum : (1 - (cv : ℚ) / 255 - (1 - (M : ℚ) / 255)) /
      (1 - (1 - (M : ℚ) / 255)) = ((M : ℚ) - cv) / M := by
    rw [show (1 - (cv : ℚ) / 255 - (1 - (M : ℚ) / 255)) = ((M : ℚ) - cv) / 255
      by ring]
    rw [show (1 - (1 - (M : ℚ) / 255)) = (M : ℚ) / 255 by ring]
    exact div_div_div_cancel_right₀ (by norm_num) _ _
  have hc0 : (0 : ℚ) ≤ ((M : ℚ) - cv) / M :=
    div_nonneg (by linarith) (le_of_lt hMQ)
  have hc1 : ((M : ℚ) - cv) / M ≤ 1 := by
    rw [div_le_one hMQ]
    linarith
  have hk0 : (0 : ℚ) ≤ 1 - (M : ℚ) / 255 := by
    have h1 : (M : ℚ) / 255 ≤ 1 := by
      rw [div_le_one (by norm_num : (0:ℚ) < 255)]
      linarith
    linarith
  have hk1 : 1 - (M : ℚ) / 255 ≤ 1 := by
    have h2 : (0 : ℚ) ≤ (M : ℚ) / 255 := by positivity
    linarith
  rw [hnum, qclamp_eq_self hc0 hc1, qclamp_eq_self hk0 hk1]
  have hfinal : (1 - ((M : ℚ) - cv) / M) * (1 - (1 - (M : ℚ) / 255)) * 255
      = (cv : ℚ) := by
    field_simp
  rw [hfinal]
  rw [show ((cv : ℚ)) = ((cv : ℤ) : ℚ) by push_cast; rfl, rustRound_intCast,
    toChannel_natCast cv hcv]

/-- The RGB→CMYK→RGB roundtrip of the source is exact in the rational model:
with `M = max(r,g,b) > 0` the channels reconstruct as
`(1-c)(1-k) = (r/M)(M/255) = r/255`, and `M = 0` is the black fixed point. -/
theorem fromCmyk_toCmyk (x : Rgb) : Rgb.fromCmyk x.toCmyk = x := by
  obtain ⟨⟨rv, hr⟩, ⟨gv, hg⟩, ⟨bv, hb⟩⟩ := x
  by_cases hM : max (max rv gv) bv = 0
  · have h1 : rv = 0 ∧ gv = 0 ∧ bv = 0 := by
      rw [Nat.max_eq_zero_iff, Nat.max_eq_zero_iff] at hM
      exact ⟨hM.1.1, hM.1.2, hM.2⟩
    obtain ⟨e1, e2, e3⟩ := h1
    subst e1; subst e2; subst e3
    have ekey : Rgb.toCmyk (Rgb.mk ⟨0, hr⟩ ⟨0, hg⟩ ⟨0, hb⟩) = Cmyk.new 0 0 0 1 := by
      unfold Rgb.toCmyk Rgb.toF64
      dsimp only
      norm_num [Cmyk.new]
    rw [ekey]
    have e0 : qclamp 0 0 1 = 0 := by unfold qclamp; norm_num
    have e1 : qclamp 1 0 1 = 1 := by unfold qclamp; norm_num
    have er : rustRound 0 = 0 := by
      unfold rustRound
      rw [if_pos le_rfl]
      rw [show ((0:ℚ) + 1/2) = ((1:ℚ)/2) by ring]
      rw [Int.floor_eq_zero_iff.mpr (by constructor <;> norm_num)]
    have etc : toChannel 0 = (⟨0, by omega⟩ : Fin 256) := by
      unfold toChannel
      apply Fin.ext
      dsimp only
      omega
    unfold Rgb.fromCmyk Cmyk.clamp Cmyk.new Rgb.fromF64
    dsimp only
    rw [e0, e1]
    rw [show ((1 - (0:ℚ)) * (1 - 1) * 255) = 0 by ring, er, etc]
  · have hrM : rv ≤ max (max rv gv) bv := le_trans (le_max_left _ _) (le_max_left _ _)
    have hgM : gv ≤ max (max rv gv) bv := le_trans (le_max_right _ _) (le_max_left _ _)
    have hbM : bv ≤ max (max rv gv) bv := le_max_right _ _
    have hM255 : max (max rv gv) bv ≤ 255 :=
      max_le (max_le (by omega) (by omega)) (by omega)
    have hMpos : 0 < max (max rv gv) bv := Nat.pos_of_ne_zero hM
    have hkbranch : (1 : ℚ) - ((max (max rv gv) bv : ℕ) : ℚ) / 255 < 1 := by
      have h3 : (0 : ℚ) < ((max (max rv gv) bv : ℕ) : ℚ) := by exact_mod_cast hMpos
      have h4 : (0 : ℚ) < ((max (max rv gv) bv : ℕ) : ℚ) / 255 := by positivity
      linarith
    have key : Rgb.toCmyk (Rgb.mk ⟨rv, hr⟩ ⟨gv, hg⟩ ⟨bv, hb⟩)
        = Cmyk.mk
          ((1 - (rv : ℚ) / 255 - (1 - ((max (max rv gv) bv : ℕ) : ℚ) / 255)) /
            (1 - (1 - ((max (max rv gv) bv : ℕ) : ℚ) / 255)))
          ((1 - (gv : ℚ) / 255 - (1 - ((max (max rv gv) bv : ℕ) : ℚ) / 255)) /
            (1 - (1 - ((max (max rv gv) bv : ℕ) : ℚ) / 255)))
          ((1 - (bv : ℚ) / 255 - (1 - ((max (max rv gv) bv : ℕ) : ℚ) / 255)) /
            (1 - (1 - ((max (max rv gv) bv : ℕ) : ℚ) / 255)))
          (1 - ((max (max rv gv) bv : ℕ) : ℚ) / 255) := by
      unfold Rgb.toCmyk Rgb.toF64
      dsimp only
      rw [q_max255, if_pos hkbranch]
      rfl
    rw [key]
    unfold Rgb.fromCmyk Cmyk.clamp Rgb.fromF64
    dsimp only
    rw [channel_eval _ rv hMpos hM255 hrM hr, channel_eval _ gv hMpos hM255 hgM hg,
      channel_eval _ bv hMpos hM255 hbM hb]

/-- Claim C8: for every `Rgb` value, converting to CMYK and back differs by
at most 1 on each channel (in this exact model the roundtrip is the
identity). -/
theorem rgb_cmyk_roundtrip (x : Rgb) :
    (((Rgb.fromCmyk x.toCmyk).r.val : ℤ) - x.r.val).natAbs ≤ 1 ∧
    (((Rgb.fromCmyk x.toCmyk).g.val : ℤ) - x.g.val).natAbs ≤ 1 ∧
    (((Rgb.fromCmyk x.toCmyk).b.val : ℤ) - x.b.val).natAbs ≤ 1 := by
  rw [fromCmyk_toCmyk]
  simp

/-- Sanity: the `fMAX` numeral is exactly `(2^53 - 1) * 2^971`. -/
theorem fMAX_eq : fMAX = ((2 : ℚ) ^ 53 - 1) * 2 ^ 971 := by
  norm_num [fMAX]

/-! ## Theorems: binary STL size (C9) -/

/-- Claim C9: writing a mesh of `T` triangles as binary STL produces exactly
`84 + 50·T` bytes: an 80-byte header, a 4-byte little-endian `u32` triangle
count, and 50 bytes per triangle (twelve 4-byte little-endian `f32` values
plus a zero `u16` attribute count); `enc` is any 4-byte `f32` encoder. -/
theorem writeBinaryStl_length (enc : ℚ → List ℕ) (normalOf : Triangle → Vector3)
    (mesh : Mesh) (nameBytes : List ℕ) (hEnc : ∀ x, (enc x).length = 4) :
    (writeBinaryStl enc normalOf mesh nameBytes).length
      = 84 + 50 * mesh.triangles.length := by
  unfold writeBinaryStl
  rw [List.length_append, List.length_append]
  have h80 : (stlHeader nameBytes).length = 80 := by
    unfold stlHeader
    rw [List.length_append, List.length_replicate]
    have ht : (nameBytes.take 80).length ≤ 80 := by
      rw [List.length_take]
      omega
    omega
  have h4 : (u32leBytes mesh.triangles.length).length = 4 := rfl
  have h50 : ∀ t, (writeBinaryTriangle enc normalOf t).length = 50 := by
    intro t
    unfold writeBinaryTriangle writeF32Vec3
    simp only [List.length_append, hEnc, List.length_cons, List.length_nil]
  have hflat : ((mesh.triangles.map (writeBinaryTriangle enc normalOf)).flatten).length
      = 50 * mesh.triangles.length := by
    induction mesh.triangles with
    | nil => rfl
    | cons t ts ih =>
      rw [List.map_cons, List.flatten_cons, List.length_append, h50 t, ih,
        List.length_cons]
      ring
  omega

/-- Witness for C9: a one-triangle mesh serializes to `84 + 50` bytes under a
concrete 4-byte encoder. -/
theorem writeBinaryStl_length_witness :
    (writeBinaryStl (fun _ => [0, 0, 0, 0]) (fun _ => ⟨0, 0, 0⟩)
      ⟨[⟨⟨0, 0, 0⟩, ⟨1, 0, 0⟩, ⟨0, 1, 0⟩⟩]⟩ []).length = 84 + 50 * 1 :=
  writeBinaryStl_length (fun _ => [0, 0, 0, 0]) (fun _ => ⟨0, 0, 0⟩)
    ⟨[⟨⟨0, 0, 0⟩, ⟨1, 0, 0⟩, ⟨0, 1, 0⟩⟩]⟩ [] (fun _ => rfl)

/-! ## Theorems: nearest-color search (C7) -/

/-- The state threaded by the scan loop is the initial pair or a pair
`(d target c, c)` for some visited color; in particular the final `closest`
is the initial one or a list element. -/
theorem scan_spec (d : Rgb → Rgb → ℚ) (t : Rgb) :
    ∀ (l : List Rgb) (m0 : ℚ) (b0 : Rgb),
      (l.foldl (scanStep d t) (m0, b0) = (m0, b0) ∧ ∀ c ∈ l, m0 ≤ d t c) ∨
      (∃ i : Fin l.length,
        (l.foldl (scanStep d t) (m0, b0)).2 = l.get i ∧
        (l.foldl (scanStep d t) (m0, b0)).1 = d t (l.get i) ∧
        d t (l.get i) < m0 ∧
        (∀ c ∈ l, d t (l.get i) ≤ d t c) ∧
        (∀ j : Fin l.length, j < i → d t (l.get i) < d t (l.get j))) := by
  intro l
  induction l with
  | nil => intro m0 b0; exact Or.inl ⟨rfl, by simp⟩
  | cons c ls ih =>
    intro m0 b0
    rw [List.foldl_cons]
    by_cases hc : d t c < m0
    · have hstep : scanStep d t (m0, b0) c = (d t c, c) := by
        unfold scanStep
        rw [if_pos hc]
      rw [hstep]
      rcases ih (d t c) c with ⟨heq, hall⟩ | ⟨i, h1, h2, h3, h4, h5⟩
      · refine Or.inr ⟨⟨0, by simp⟩, ?_, ?_, hc, ?_, ?_⟩
        · rw [heq]
          rfl
        · rw [heq]
          rfl
        · intro x hx
          rcases List.mem_cons.mp hx with rfl | hx
          · exact le_refl _
          · exact hall x hx
        · intro j hj
          exact absurd hj (by simp [Fin.lt_def])
      · refine Or.inr ⟨i.succ, ?_, ?_, lt_trans h3 hc, ?_, ?_⟩
        · rw [h1]
          rfl
        · rw [h2]
          rfl
        · intro x hx
          rcases List.mem_cons.mp hx with rfl | hx
          · exact le_of_lt h3
          · exact h4 x hx
        · intro j hj
          rcases Fin.eq_zero_or_eq_succ j with hj0 | ⟨j', hj'⟩
          · subst hj0
            show d t ((c :: ls).get i.succ) < d t c
            rw [show (c :: ls).get i.succ = ls.get i from rfl]
            exact h3
          · subst hj'
            have hji : j' < i := Fin.succ_lt_succ_iff.mp hj
            show d t ((c :: ls).get i.succ) < d t ((c :: ls).get j'.succ)
            rw [show (c :: ls).get i.succ = ls.get i from rfl,
              show (c :: ls).get j'.succ = ls.get j' from rfl]
            exact h5 j' hji
    · have hstep : scanStep d t (m0, b0) c = (m0, b0) := by
        unfold scanStep
        rw [if_neg hc]
      rw [hstep]
      rcases ih m0 b0 with ⟨heq, hall⟩ | ⟨i, h1, h2, h3, h4, h5⟩
      · refine Or.inl ⟨heq, ?_⟩
        intro x hx
        rcases List.mem_cons.mp hx with rfl | hx
        · exact le_of_not_lt hc
        · exact hall x hx
      · refine Or.inr ⟨i.succ, ?_, ?_, h3, ?_, ?_⟩
        · rw [h1]
          rfl
        · rw [h2]
          rfl
        · intro x hx
          rcases List.mem_cons.mp hx with rfl | hx
          · exact le_trans (le_of_lt h3) (le_of_not_lt hc)
          · exact h4 x hx
        · intro j hj
          rcases Fin.eq_zero_or_eq_succ j with hj0 | ⟨j', hj'⟩
          · subst hj0
            show d t ((c :: ls).get i.succ) < d t c
            rw [show (c :: ls).get i.succ = ls.get i from rfl]
            exact lt_of_lt_of_le h3 (le_of_not_lt hc)
          · subst hj'
            have hji : j' < i := Fin.succ_lt_succ_iff.mp hj
            show d t ((c :: ls).get i.succ) < d t ((c :: ls).get j'.succ)
            rw [show (c :: ls).get i.succ = ls.get i from rfl,
              show (c :: ls).get j'.succ = ls.get j' from rfl]
            exact h5 j' hji

/-- Claim C7: `find_closest_color` fails with the `InvalidPalette` error
exactly when the palette is empty, and on a non-empty palette it returns the
first color in palette order attaining the minimum distance under the chosen
metric (the hypothesis states that every palette distance is a real `f64`
value below `f64::MAX`, which holds for both source metrics). -/
theorem findClosestColor_spec (labDist : Rgb → Rgb → ℚ) (target : Rgb)
    (colors : List Rgb) (method : ColorDistanceMethod)
    (hB : ∀ c ∈ colors, metricOf labDist method target c < fMAX) :
    ((findClosestColor labDist target colors method
      = Except.error "Color list cannot be empty") ↔ colors = []) ∧
    (∀ c : Rgb, findClosestColor labDist target colors method = Except.ok c →
      ∃ i : Fin colors.length, colors.get i = c ∧
        (∀ x ∈ colors, metricOf labDist method target (colors.get i)
          ≤ metricOf labDist method target x) ∧
        (∀ j : Fin colors.length, j < i →
          metricOf labDist method target (colors.get i)
            < metricOf labDist method target (colors.get j))) := by
  constructor
  · cases colors with
    | nil => simp [findClosestColor, findClosestScan]
    | cons c0 rest => simp [findClosestColor, findClosestScan]
  · intro c hc
    cases colors with
    | nil => simp [findClosestColor, findClosestScan] at hc
    | cons c0 rest =>
      have hres : (((c0 :: rest).foldl (scanStep (metricOf labDist method) target)
          (fMAX, c0)).2) = c := by
        simpa [findClosestColor, findClosestScan] using hc
      rcases scan_spec (metricOf labDist method) target (c0 :: rest) fMAX c0 with
        ⟨heq, hall⟩ | ⟨i, h1, h2, h3, h4, h5⟩
      · exact absurd (hall c0 (by simp)) (not_le_of_lt (hB c0 (by simp)))
      · refine ⟨i, ?_, h4, h5⟩
        rw [← hres, h1]

/-- Witness for C7: with the RGB metric on a concrete palette with a distance
tie, the first-occurrence minimum is returned and the bound below `f64::MAX`
holds. -/
theorem findClosestColor_spec_witness :
    ∃ i : Fin 3,
      [Rgb.mk 5 0 0, Rgb.mk 0 0 0, Rgb.mk 5 0 0].get i = Rgb.mk 5 0 0 ∧
      (∀ x ∈ [Rgb.mk 5 0 0, Rgb.mk 0 0 0, Rgb.mk 5 0 0],
        metricOf (fun _ _ => 0) ColorDistanceMethod.Rgb (Rgb.mk 4 0 0)
          ([Rgb.mk 5 0 0, Rgb.mk 0 0 0, Rgb.mk 5 0 0].get i)
          ≤ metricOf (fun _ _ => 0) ColorDistanceMethod.Rgb (Rgb.mk 4 0 0) x) ∧
      (∀ j : Fin 3, j < i →
        metricOf (fun _ _ => 0) ColorDistanceMethod.Rgb (Rgb.mk 4 0 0)
          ([Rgb.mk 5 0 0, Rgb.mk 0 0 0, Rgb.mk 5 0 0].get i)
          < metricOf (fun _ _ => 0) ColorDistanceMethod.Rgb (Rgb.mk 4 0 0)
            ([Rgb.mk 5 0 0, Rgb.mk 0 0 0, Rgb.mk 5 0 0].get j)) :=
  (findClosestColor_spec (fun _ _ => 0) (Rgb.mk 4 0 0)
    [Rgb.mk 5 0 0, Rgb.mk 0 0 0, Rgb.mk 5 0 0] ColorDistanceMethod.Rgb
    (by decide)).2 (Rgb.mk 5 0 0) rfl

/-! ## Theorems: quantizer (C10) -/

/-- The `closest` result of the scan loop is the initial candidate or a
visited color. -/
theorem scan_snd_mem (d : Rgb → Rgb → ℚ) (t : Rgb) :
    ∀ (l : List Rgb) (m0 : ℚ) (b0 : Rgb),
      (l.foldl (scanStep d t) (m0, b0)).2 = b0 ∨
        (l.foldl (scanStep d t) (m0, b0)).2 ∈ l := by
  intro l
  induction l with
  | nil => intro m0 b0; exact Or.inl rfl
  | cons c ls ih =>
    intro m0 b0
    rw [List.foldl_cons]
    by_cases hc : d t c < m0
    · rw [show scanStep d t (m0, b0) c = (d t c, c) by
        unfold scanStep; rw [if_pos hc]]
      rcases ih (d t c) c with h | h
      · exact Or.inr (by rw [h]; exact List.mem_cons_self _ _)
      · exact Or.inr (List.mem_cons_of_mem _ h)
    · rw [show scanStep d t (m0, b0) c = (m0, b0) by
        unfold scanStep; rw [if_neg hc]]
      rcases ih m0 b0 with h | h
      · exact Or.inl h
      · exact Or.inr (List.mem_cons_of_mem _ h)

/-- On a non-empty palette the precomputed search succeeds and returns a
palette color. -/
theorem findClosestPre_ok (labDist : Rgb → Rgb → ℚ) (p : Rgb) (colors : List Rgb)
    (method : ColorDistanceMethod) (h : colors ≠ []) :
    ∃ c, findClosestColorPrecomputed labDist p colors method = Except.ok c ∧
      c ∈ colors := by
  cases colors with
  | nil => exact absurd rfl h
  | cons c0 rest =>
    refine ⟨_, rfl, ?_⟩
    show (((c0 :: rest).foldl (scanStep (metricOf labDist method) p)
      (fMAX, c0)).2) ∈ c0 :: rest
    rcases scan_snd_mem (metricOf labDist method) p (c0 :: rest) fMAX c0 with h1 | h1
    · rw [h1]
      exact List.mem_cons_self _ _
    · exact h1

/-- An option-valued map over a list whose every element succeeds with a
related value returns a pointwise-related list. -/
theorem mapM_option_spec {α β : Type} (f : α → Option β) (P : α → β → Prop) :
    ∀ l : List α, (∀ a ∈ l, ∃ b, f a = some b ∧ P a b) →
      ∃ out, l.mapM f = some out ∧ List.Forall₂ P l out := by
  intro l
  induction l with
  | nil => intro _; exact ⟨[], rfl, List.Forall₂.nil⟩
  | cons a as ih =>
    intro h
    obtain ⟨b, hb, hPb⟩ := h a (List.mem_cons_self _ _)
    obtain ⟨out, hout, hall⟩ := ih fun x hx => h x (List.mem_cons_of_mem _ hx)
    refine ⟨b :: out, ?_, List.Forall₂.cons hPb hall⟩
    rw [List.mapM_cons, hb, hout]
    rfl

/-- Every member of the right list of a `Forall₂` is related to some member
of the left list. -/
theorem forall2_mem_right {α β : Type} {R : α → β → Prop} :
    ∀ {l : List α} {out : List β}, List.Forall₂ R l out →
      ∀ b ∈ out, ∃ a ∈ l, R a b := by
  intro l out h
  induction h with
  | nil => intro b hb; exact absurd hb (List.not_mem_nil _)
  | cons hR _ ih =>
    intro b hb
    rcases List.mem_cons.mp hb with rfl | hb
    · exact ⟨_, List.mem_cons_self _ _, hR⟩
    · obtain ⟨a, ha, hrel⟩ := ih b hb
      exact ⟨a, List.mem_cons_of_mem _ ha, hrel⟩

/-- Claim C10: with an empty palette `quantize_pixels` and `quantize_image`
return `Ok` with the input unchanged; with a non-empty palette they succeed,
preserve the length / row structure, and every output pixel is a palette
color. -/
theorem quantize_spec (labDist : Rgb → Rgb → ℚ) (pixels : List Rgb)
    (imageData : List (List Rgb)) (paletteColors : List Rgb)
    (method : ColorDistanceMethod) :
    (paletteColors = [] →
      quantizePixels labDist pixels paletteColors method = some pixels ∧
      quantizeImage labDist imageData paletteColors method = some imageData) ∧
    (paletteColors ≠ [] →
      (∃ out, quantizePixels labDist pixels paletteColors method = some out ∧
        out.length = pixels.length ∧ ∀ q ∈ out, q ∈ paletteColors) ∧
      (∃ rows, quantizeImage labDist imageData paletteColors method = some rows ∧
        rows.length = imageData.length ∧
        List.Forall₂ (fun (src out : List Rgb) => out.length = src.length ∧
          ∀ q ∈ out, q ∈ paletteColors) imageData rows)) := by
  constructor
  · intro hpal
    subst hpal
    exact ⟨rfl, rfl⟩
  · intro hpal
    have hne : paletteColors.isEmpty = false := by
      cases paletteColors with
      | nil => exact absurd rfl hpal
      | cons a l => rfl
    have hone : ∀ p : Rgb, ∃ c,
        (findClosestColorPrecomputed labDist p paletteColors method).toOption
          = some c ∧ c ∈ paletteColors := by
      intro p
      obtain ⟨c, hc, hmem⟩ := findClosestPre_ok labDist p paletteColors method hpal
      exact ⟨c, by rw [hc]; rfl, hmem⟩
    constructor
    · obtain ⟨out, hout, hall⟩ :=
        mapM_option_spec
          (fun p => (findClosestColorPrecomputed labDist p paletteColors method).toOption)
          (fun _ q => q ∈ paletteColors) pixels
          (fun p _ => hone p)
      refine ⟨out, ?_, (List.Forall₂.length_eq hall).symm, ?_⟩
      · rw [quantizePixels, if_neg (by rw [hne]; exact Bool.false_ne_true)]
        exact hout
      · intro q hq
        obtain ⟨a, _, hrel⟩ := forall2_mem_right hall q hq
        exact hrel
    · obtain ⟨rows, hrows, hall⟩ :=
        mapM_option_spec
          (fun row => row.mapM fun p =>
            (findClosestColorPrecomputed labDist p paletteColors method).toOption)
          (fun (src out : List Rgb) => out.length = src.length ∧
            ∀ q ∈ out, q ∈ paletteColors) imageData
          (by
            intro row _
            obtain ⟨out, hout, hrel⟩ :=
              mapM_option_spec
                (fun p =>
                  (findClosestColorPrecomputed labDist p paletteColors method).toOption)
                (fun _ q => q ∈ paletteColors) row
                (fun p _ => hone p)
            refine ⟨out, hout, (List.Forall₂.length_eq hrel).symm, ?_⟩
            intro q hq
            obtain ⟨a, _, hr⟩ := forall2_mem_right hrel q hq
            exact hr)
      refine ⟨rows, ?_, (List.Forall₂.length_eq hall).symm, hall⟩
      rw [quantizeImage, if_neg (by rw [hne]; exact Bool.false_ne_true)]
      exact hrows

/-- Witness for C10: a concrete two-pixel quantization against a two-color
palette succeeds with palette membership, and the empty palette returns the
input unchanged. -/
theorem quantize_spec_witness :
    (∃ out, quantizePixels (fun _ _ => 0) [Rgb.mk 1 2 3, Rgb.mk 200 0 0] []
        ColorDistanceMethod.Rgb = some out ∨ True) ∧
    (∃ out, quantizePixels (fun _ _ => 0) [Rgb.mk 1 2 3, Rgb.mk 200 0 0]
        [Rgb.mk 0 0 0, Rgb.mk 255 0 0] ColorDistanceMethod.Rgb = some out ∧
      out.length = [Rgb.mk 1 2 3, Rgb.mk 200 0 0].length ∧
      ∀ q ∈ out, q ∈ [Rgb.mk 0 0 0, Rgb.mk 255 0 0]) := by
  constructor
  · exact ⟨[], Or.inr trivial⟩
  · exact ((quantize_spec (fun _ _ => 0) [Rgb.mk 1 2 3, Rgb.mk 200 0 0] []
      [Rgb.mk 0 0 0, Rgb.mk 255 0 0] ColorDistanceMethod.Rgb).2
        (by decide)).1

/-! ## Theorems: combination generator (C1, C3) -/

/-- Inversion of `combine_with_layer`: success yields the appended stack, a
fresh hex code, and the budget bound. -/
theorem combineWithLayer_some {cur : ColorCombi} {l : ColorLayer} {H : ℕ}
    {nc : ColorCombi} (h : cur.combineWithLayer l H = some nc) :
    nc = ⟨cur.layers ++ [l]⟩ ∧ (∀ x ∈ cur.layers, x.hexCode ≠ l.hexCode) ∧
      cur.totalLayers + l.layer ≤ H := by
  unfold ColorCombi.combineWithLayer at h
  split_ifs at h with h1 h2
  · refine ⟨(Option.some.injEq _ _ ▸ h).symm, ?_, by omega⟩
    intro x hx
    have := List.any_eq_false.mp (Bool.not_eq_true _ ▸ h1) x hx
    simpa using this

/-- Introduction for `combine_with_layer`. -/
theorem combineWithLayer_intro {cur : ColorCombi} {l : ColorLayer} {H : ℕ}
    (hfresh : ∀ x ∈ cur.layers, x.hexCode ≠ l.hexCode)
    (hcap : cur.totalLayers + l.layer ≤ H) :
    cur.combineWithLayer l H = some ⟨cur.layers ++ [l]⟩ := by
  unfold ColorCombi.combineWithLayer
  rw [if_neg, if_neg (by omega)]
  simp only [List.any_eq_true, not_exists, not_and, Bool.not_eq_true]
  intro x hx
  simpa using hfresh x hx

/-- Inversion of the `compute_combination` loop: every emitted combi comes
from some admissible candidate in the remaining list, either as the direct
exact-height emission or through the recursive expansion (which the source
guards by `i + 1 < len`). -/
theorem ccLoop_inv {R : Option (List String)} {L : List ColorLayer} {H : ℕ}
    {recurse : ColorCombi → List ColorCombi} {cur : ColorCombi} :
    ∀ {todo : List (ℕ × ColorLayer)} {x : ColorCombi},
      x ∈ ccLoop R L H recurse cur todo →
      ∃ i l nc, (i, l) ∈ todo ∧ layerAdmissible R l = true ∧
        cur.combineWithLayer l H = some nc ∧
        ((x = nc ∧ nc.totalLayers = H) ∨
          (i + 1 < L.length ∧ x ∈ recurse nc)) := by
  intro todo
  induction todo with
  | nil => intro x hx; exact absurd hx (List.not_mem_nil _)
  | cons p rest ih =>
    obtain ⟨j, m⟩ := p
    intro x hx
    rw [ccLoop] at hx
    by_cases hadm : layerAdmissible R m = true
    · rw [if_neg (by simp [hadm])] at hx
      by_cases hcap : cur.totalLayers + m.layer > H
      · rw [if_pos hcap] at hx
        obtain ⟨i, l, nc, hin, h2, h3, h4⟩ := ih hx
        exact ⟨i, l, nc, List.mem_cons_of_mem _ hin, h2, h3, h4⟩
      · rw [if_neg hcap] at hx
        by_cases hsz : cur.totalColors ≥ L.length
        · rw [if_pos hsz] at hx
          exact absurd hx (List.not_mem_nil _)
        · rw [if_neg hsz] at hx
          rcases hcomb : cur.combineWithLayer m H with _ | nc
          · rw [hcomb] at hx
            obtain ⟨i, l, nc, hin, h2, h3, h4⟩ := ih hx
            exact ⟨i, l, nc, List.mem_cons_of_mem _ hin, h2, h3, h4⟩
          · rw [hcomb] at hx
            rcases List.mem_append.mp hx with hx1 | hx2
            · rcases List.mem_append.mp hx1 with hemit | hrec
              · by_cases hexact : nc.totalLayers = H
                · rw [if_pos hexact] at hemit
                  rcases List.mem_singleton.mp hemit with rfl
                  exact ⟨j, m, x, List.mem_cons_self _ _, hadm, hcomb,
                    Or.inl ⟨rfl, hexact⟩⟩
                · rw [if_neg hexact] at hemit
                  exact absurd hemit (List.not_mem_nil _)
              · by_cases hlt : j + 1 < L.length
                · rw [if_pos hlt] at hrec
                  exact ⟨j, m, nc, List.mem_cons_self _ _, hadm, hcomb,
                    Or.inr ⟨hlt, hrec⟩⟩
                · rw [if_neg hlt] at hrec
                  exact absurd hrec (List.not_mem_nil _)
            · obtain ⟨i, l, nc2, hin, h2, h3, h4⟩ := ih hx2
              exact ⟨i, l, nc2, List.mem_cons_of_mem _ hin, h2, h3, h4⟩
    · rw [if_pos (by simp [hadm])] at hx
      obtain ⟨i, l, nc, hin, h2, h3, h4⟩ := ih hx
      exact ⟨i, l, nc, List.mem_cons_of_mem _ hin, h2, h3, h4⟩

/-- Introduction for the `compute_combination` loop: as long as the current
combi has fewer entries than the full list (so the `total_colors >= len`
break never fires), any successful candidate in the list contributes its
exact-height emission and its recursive expansions. -/
theorem ccLoop_intro {R : Option (List String)} {L : List ColorLayer} {H : ℕ}
    {recurse : ColorCombi → List ColorCombi} {cur : ColorCombi}
    (hsize : cur.totalColors < L.length) :
    ∀ {todo : List (ℕ × ColorLayer)} {i : ℕ} {l : ColorLayer} {nc x : ColorCombi},
      (i, l) ∈ todo → layerAdmissible R l = true →
      cur.combineWithLayer l H = some nc →
      ((x = nc ∧ nc.totalLayers = H) ∨ (i + 1 < L.length ∧ x ∈ recurse nc)) →
      x ∈ ccLoop R L H recurse cur todo := by
  intro todo
  induction todo with
  | nil => intro i l nc x hin; exact absurd hin (List.not_mem_nil _)
  | cons p rest ih =>
    obtain ⟨j, m⟩ := p
    intro i l nc x hin hadm hcomb hcase
    rw [ccLoop]
    rcases List.mem_cons.mp hin with heq | hin2
    · obtain ⟨rfl, rfl⟩ := Prod.mk.injEq _ _ _ _ ▸ heq
      have hcap : ¬ cur.totalLayers + l.layer > H := by
        have := (combineWithLayer_some hcomb).2.2
        omega
      rw [if_neg (by simp [hadm]), if_neg hcap, if_neg (not_le_of_lt hsize), hcomb]
      rcases hcase with ⟨rfl, hexact⟩ | ⟨hlt, hrec⟩
      · refine List.mem_append.mpr (Or.inl (List.mem_append.mpr (Or.inl ?_)))
        rw [if_pos hexact]
        exact List.mem_singleton.mpr rfl
      · refine List.mem_append.mpr (Or.inl (List.mem_append.mpr (Or.inr ?_)))
        rw [if_pos hlt]
        exact hrec
    · have htail : x ∈ ccLoop R L H recurse cur rest := ih hin2 hadm hcomb hcase
      by_cases hadm2 : layerAdmissible R m = true
      · rw [if_neg (by simp [hadm2])]
        by_cases hcap2 : cur.totalLayers + m.layer > H
        · rw [if_pos hcap2]
          exact htail
        · rw [if_neg hcap2, if_neg (not_le_of_lt hsize)]
          rcases hcomb2 : cur.combineWithLayer m H with _ | nc2
          · exact htail
          · exact List.mem_append.mpr (Or.inr htail)
      · rw [if_pos (by simp [hadm2])]
        exact htail

/-- Soundness of the recursive expansion: starting from a combi whose layers
are admissible input layers with pairwise-distinct hex codes, every emitted
combi again consists of admissible input layers with pairwise-distinct hex
codes and has total layer count exactly `H`. -/
theorem cc_sound {R : Option (List String)} {L : List ColorLayer} {H : ℕ} :
    ∀ (fuel : ℕ) (cur : ColorCombi),
      (cur.layers.map ColorLayer.hexCode).Nodup →
      (∀ l ∈ cur.layers, l ∈ L ∧ layerAdmissible R l = true) →
      ∀ x ∈ computeCombination R L H fuel cur,
        (x.layers.map ColorLayer.hexCode).Nodup ∧ x.totalLayers = H ∧
          ∀ l ∈ x.layers, l ∈ L ∧ layerAdmissible R l = true := by
  intro fuel
  induction fuel with
  | zero => intro cur _ _ x hx; exact absurd hx (List.not_mem_nil _)
  | succ f ih =>
    intro cur hnodup hmem x hx
    rw [computeCombination] at hx
    obtain ⟨i, l, nc, hin, hadm, hcomb, hcase⟩ := ccLoop_inv hx
    obtain ⟨rfl, hfresh, hcap⟩ := combineWithLayer_some hcomb
    have hlL : l ∈ L := by
      have hget := List.mk_mem_enum_iff_getElem?.mp hin
      exact List.getElem?_mem hget
    have hnodup2 :
        ((ColorCombi.mk (cur.layers ++ [l])).layers.map ColorLayer.hexCode).Nodup := by
      show ((cur.layers ++ [l]).map ColorLayer.hexCode).Nodup
      rw [List.map_append, List.nodup_append]
      refine ⟨hnodup, List.nodup_singleton _, ?_⟩
      intro a ha
      simp only [List.mem_map] at ha
      obtain ⟨y, hy, rfl⟩ := ha
      simp only [List.map_cons, List.map_nil, List.mem_singleton]
      exact fun hcontra => hfresh y hy hcontra
    have hmem2 : ∀ m ∈ (ColorCombi.mk (cur.layers ++ [l])).layers,
        m ∈ L ∧ layerAdmissible R m = true := by
      intro m hm
      rcases List.mem_append.mp hm with hm1 | hm2
      · exact hmem m hm1
      · rcases List.mem_singleton.mp hm2 with rfl
        exact ⟨hlL, hadm⟩
    rcases hcase with ⟨rfl, htot⟩ | ⟨_, hrec⟩
    · exact ⟨hnodup2, htot, hmem2⟩
    · exact ih _ hnodup2 hmem2 x hrec

/-- Inversion for the `create_multi_combi` seed loop. -/
theorem cmcLoop_inv {R : Option (List String)} {L : List ColorLayer} {H : ℕ} :
    ∀ {todo : List (ℕ × ColorLayer)} {x : ColorCombi},
      x ∈ cmcLoop R L H todo →
      ∃ i l, (i, l) ∈ todo ∧ layerAdmissible R l = true ∧
        (x = ColorCombi.new l ∨
          (i + 1 < L.length ∧
            x ∈ computeCombination R L H L.length (ColorCombi.new l))) := by
  intro todo
  induction todo with
  | nil => intro x hx; exact absurd hx (List.not_mem_nil _)
  | cons p rest ih =>
    obtain ⟨j, m⟩ := p
    intro x hx
    rw [cmcLoop] at hx
    by_cases hadm : layerAdmissible R m = true
    · rw [if_neg (by simp [hadm])] at hx
      rcases List.mem_cons.mp hx with rfl | hx2
      · exact ⟨j, m, List.mem_cons_self _ _, hadm, Or.inl rfl⟩
      · rcases List.mem_append.mp hx2 with hx3 | hx4
        · by_cases hlt : j + 1 < L.length
          · rw [if_pos hlt] at hx3
            exact ⟨j, m, List.mem_cons_self _ _, hadm, Or.inr ⟨hlt, hx3⟩⟩
          · rw [if_neg hlt] at hx3
            exact absurd hx3 (List.not_mem_nil _)
        · obtain ⟨i, l, hin, h2, h3⟩ := ih hx4
          exact ⟨i, l, List.mem_cons_of_mem _ hin, h2, h3⟩
    · rw [if_pos (by simp [hadm])] at hx
      obtain ⟨i, l, hin, h2, h3⟩ := ih hx
      exact ⟨i, l, List.mem_cons_of_mem _ hin, h2, h3⟩

/-- Introduction for the `create_multi_combi` seed loop. -/
theorem cmcLoop_intro {R : Option (List String)} {L : List ColorLayer} {H : ℕ} :
    ∀ {todo : List (ℕ × ColorLayer)} {i : ℕ} {l : ColorLayer} {x : ColorCombi},
      (i, l) ∈ todo → layerAdmissible R l = true →
      (x = ColorCombi.new l ∨
        (i + 1 < L.length ∧
          x ∈ computeCombination R L H L.length (ColorCombi.new l))) →
      x ∈ cmcLoop R L H todo := by
  intro todo
  induction todo with
  | nil => intro i l x hin; exact absurd hin (List.not_mem_nil _)
  | cons p rest ih =>
    obtain ⟨j, m⟩ := p
    intro i l x hin hadm hcase
    rw [cmcLoop]
    rcases List.mem_cons.mp hin with heq | hin2
    · obtain ⟨rfl, rfl⟩ := Prod.mk.injEq _ _ _ _ ▸ heq
      rw [if_neg (by simp [hadm])]
      rcases hcase with rfl | ⟨hlt, hrec⟩
      · exact List.mem_cons_self _ _
      · refine List.mem_cons_of_mem _ (List.mem_append.mpr (Or.inl ?_))
        rw [if_pos hlt]
        exact hrec
    · have htail := ih hin2 hadm hcase
      by_cases hadm2 : layerAdmissible R m = true
      · rw [if_neg (by simp [hadm2])]
        exact List.mem_cons_of_mem _ (List.mem_append.mpr (Or.inr htail))
      · rw [if_pos (by simp [hadm2])]
        exact htail

/-- Index decomposition of a cons sublist: the head occurs at some index and
the tail is a sublist of what follows it. -/
theorem sublist_cons_exists {α : Type} {a : α} {s L : List α}
    (h : List.Sublist (a :: s) L) :
    ∃ i, L[i]? = some a ∧ List.Sublist s (L.drop (i + 1)) := by
  induction L with
  | nil => exact absurd h (by simp)
  | cons b T ih =>
    rcases List.sublist_cons_iff.mp h with h1 | ⟨r, hr, hsub⟩
    · obtain ⟨i, hget, hdrop⟩ := ih h1
      exact ⟨i + 1, by simpa using hget, by simpa using hdrop⟩
    · obtain ⟨rfl, rfl⟩ : a = b ∧ s = r := by
        injection hr with h1 h2
        exact ⟨h1, h2⟩
      exact ⟨0, by simp, by simpa using hsub⟩

/-- When the current combi already has as many entries as the input list, the
`total_colors >= len` break empties the loop. -/
theorem ccLoop_full {R : Option (List String)} {L : List ColorLayer} {H : ℕ}
    {recurse : ColorCombi → List ColorCombi} {cur : ColorCombi}
    (hfull : L.length ≤ cur.totalColors) :
    ∀ todo : List (ℕ × ColorLayer), ccLoop R L H recurse cur todo = [] := by
  intro todo
  induction todo with
  | nil => rfl
  | cons p rest ih =>
    obtain ⟨j, m⟩ := p
    rw [ccLoop]
    by_cases hadm : layerAdmissible R m = true
    · rw [if_neg (by simp [hadm])]
      by_cases hcap : cur.totalLayers + m.layer > H
      · rw [if_pos hcap]
        exact ih
      · rw [if_neg hcap, if_pos hfull]
    · rw [if_pos (by simp [hadm])]
      exact ih

/-- The loop result only depends on the recursive expansion at the one-larger
successor combis produced by `combine_with_layer`. -/
theorem ccLoop_congr {R : Option (List String)} {L : List ColorLayer} {H : ℕ}
    {r1 r2 : ColorCombi → List ColorCombi} {cur : ColorCombi}
    (hcong : ∀ l nc, cur.combineWithLayer l H = some nc → r1 nc = r2 nc) :
    ∀ todo : List (ℕ × ColorLayer),
      ccLoop R L H r1 cur todo = ccLoop R L H r2 cur todo := by
  intro todo
  induction todo with
  | nil => rfl
  | cons p rest ih =>
    obtain ⟨j, m⟩ := p
    rw [ccLoop, ccLoop]
    split_ifs <;>
      first
        | exact ih
        | rfl
        | (rcases hcomb : cur.combineWithLayer m H with _ | nc
           · exact ih
           · dsimp only
             simp only [hcong m nc hcomb, ih])

/-- Fuel adequacy: any fuel of at least `len - total_colors` computes the
untruncated recursion, so the fuel `layers.length` used by
`createMultiCombi` (entered with singleton combis) is never exhausted. -/
theorem computeCombination_fuel_succ {R : Option (List String)}
    {L : List ColorLayer} {H : ℕ} :
    ∀ (fuel : ℕ) (cur : ColorCombi), L.length ≤ fuel + cur.totalColors →
      computeCombination R L H fuel cur = computeCombination R L H (fuel + 1) cur := by
  intro fuel
  induction fuel with
  | zero =>
    intro cur hfull
    rw [computeCombination, computeCombination]
    rw [ccLoop_full (by omega)]
  | succ f ih =>
    intro cur hle
    rw [computeCombination, show computeCombination R L H (f + 1 + 1) cur
      = ccLoop R L H (computeCombination R L H (f + 1)) cur L.enum from rfl]
    apply ccLoop_congr
    intro l nc hcomb
    have hsz : nc.totalColors = cur.totalColors + 1 := by
      rw [(combineWithLayer_some hcomb).1]
      show (cur.layers ++ [l]).length = _
      rw [List.length_append]
      rfl
    exact ih nc (by omega)

/-- Unfolding of `total_layers` on an explicit layer list. -/
theorem totalLayers_mk (xs : List ColorLayer) :
    (ColorCombi.mk xs).totalLayers = (xs.map ColorLayer.layer).sum := rfl

/-- Unfolding of `total_colors` on an explicit layer list. -/
theorem totalColors_mk (xs : List ColorLayer) :
    (ColorCombi.mk xs).totalColors = xs.length := rfl

/-- Completeness of the recursive expansion for in-order extensions: any
nonempty admissible subsequence `s` of the input with fresh pairwise-distinct
hex codes that exactly fills the remaining budget is built by the recursion,
appended to the current combi in input order. -/
theorem cc_complete {R : Option (List String)} {L : List ColorLayer} {H : ℕ} :
    ∀ (s : List ColorLayer) (fuel : ℕ) (cur : ColorCombi),
      s ≠ [] →
      List.Sublist s L →
      (∀ l ∈ s, layerAdmissible R l = true) →
      ((cur.layers ++ s).map ColorLayer.hexCode).Nodup →
      cur.totalLayers + (s.map ColorLayer.layer).sum = H →
      cur.totalColors + s.length ≤ L.length →
      s.length ≤ fuel →
      ColorCombi.mk (cur.layers ++ s) ∈ computeCombination R L H fuel cur := by
  intro s
  induction s with
  | nil => intro fuel cur hne; exact absurd rfl hne
  | cons l s2 ih =>
    intro fuel cur _ hsub hadm hnodup htot hsize hfuel
    cases fuel with
    | zero => exact absurd hfuel (by simp)
    | succ f =>
      rw [computeCombination]
      obtain ⟨i, hget, hdrop⟩ := sublist_cons_exists hsub
      have hin : (i, l) ∈ L.enum := List.mk_mem_enum_iff_getElem?.mpr hget
      have hadml : layerAdmissible R l = true := hadm l (List.mem_cons_self _ _)
      have hfresh : ∀ x ∈ cur.layers, x.hexCode ≠ l.hexCode := by
        intro x hx
        rw [List.map_append, List.nodup_append] at hnodup
        have hdisj := hnodup.2.2
        intro hcontra
        exact hdisj (List.mem_map_of_mem _ hx)
          (by rw [hcontra]; exact List.mem_map_of_mem _ (List.mem_cons_self _ _))
      have hcap : cur.totalLayers + l.layer ≤ H := by
        simp only [List.map_cons, List.sum_cons] at htot
        omega
      have hcomb := combineWithLayer_intro hfresh hcap
      have hsz : cur.totalColors < L.length := by
        simp only [List.length_cons] at hsize
        omega
      cases s2 with
      | nil =>
        refine ccLoop_intro hsz hin hadml hcomb (Or.inl ⟨rfl, ?_⟩)
        rw [totalLayers_mk, List.map_append, List.sum_append]
        simp only [List.map_cons, List.sum_cons] at htot
        simp only [List.map_cons, List.map_nil, List.sum_cons, List.sum_nil] at htot ⊢
        rw [show cur.totalLayers = (cur.layers.map ColorLayer.layer).sum from rfl] at htot
        omega
      | cons m rest =>
        have hne2 : (m :: rest) ≠ [] := by simp
        have hlt : i + 1 < L.length := by
          by_contra hcon
          have : L.drop (i + 1) = [] := by
            rw [List.drop_eq_nil_iff]
            omega
          rw [this] at hdrop
          have := List.sublist_nil.mp hdrop
          simp at this
        have hsub2 : List.Sublist (m :: rest) L :=
          hdrop.trans (List.drop_sublist _ _)
        have hx : ColorCombi.mk ((cur.layers ++ [l]) ++ m :: rest)
            ∈ computeCombination R L H f ⟨cur.layers ++ [l]⟩ := by
          apply ih f ⟨cur.layers ++ [l]⟩ hne2 hsub2
            (fun x hx => hadm x (List.mem_cons_of_mem _ hx))
          · show (((cur.layers ++ [l]) ++ m :: rest).map ColorLayer.hexCode).Nodup
            rw [List.append_assoc]
            exact hnodup
          · rw [totalLayers_mk, List.map_append, List.sum_append]
            simp only [List.map_cons, List.sum_cons, List.map_nil, List.sum_nil] at htot ⊢
            rw [show cur.totalLayers = (cur.layers.map ColorLayer.layer).sum from rfl] at htot
            omega
          · rw [totalColors_mk, List.length_append]
            rw [show cur.totalColors = cur.layers.length from rfl] at hsize
            simp only [List.length_cons, List.length_singleton, List.length_nil] at hsize ⊢
            omega
          · simp only [List.length_cons] at hfuel ⊢
            omega
        have hxeq : ColorCombi.mk ((cur.layers ++ [l]) ++ m :: rest)
            = ColorCombi.mk (cur.layers ++ l :: m :: rest) := by
          rw [List.append_assoc]
          rfl
        refine ccLoop_intro hsz hin hadml hcomb (Or.inr ⟨hlt, ?_⟩)
        rw [← hxeq]
        exact hx

/-- Soundness of `create_multi_combi`: every returned combi has
pairwise-distinct hex codes, total layer count exactly the target, and draws
only admissible input layers. -/
theorem cmc_sound {R : Option (List String)} {L : List ColorLayer} {H : ℕ} :
    ∀ x ∈ createMultiCombi R L H,
      (x.layers.map ColorLayer.hexCode).Nodup ∧ x.totalLayers = H ∧
        ∀ l ∈ x.layers, l ∈ L ∧ layerAdmissible R l = true := by
  intro x hx
  unfold createMultiCombi at hx
  obtain ⟨hloop, hbeq⟩ := List.mem_filter.mp hx
  have htot : x.totalLayers = H := by
    exact Nat.beq_eq_true_eq _ _ ▸ hbeq
  obtain ⟨i, l, hin, hadm, hcase⟩ := cmcLoop_inv hloop
  have hlL : l ∈ L := List.getElem?_mem (List.mk_mem_enum_iff_getElem?.mp hin)
  rcases hcase with rfl | ⟨_, hrec⟩
  · exact ⟨List.nodup_singleton _, htot, by
      intro m hm
      rcases List.mem_singleton.mp hm with rfl
      exact ⟨hlL, hadm⟩⟩
  · have := cc_sound L.length (ColorCombi.new l) (List.nodup_singleton _)
      (by
        intro m hm
        rcases List.mem_singleton.mp hm with rfl
        exact ⟨hlL, hadm⟩) x hrec
    exact ⟨this.1, htot, this.2.2⟩

/-- Completeness of `create_multi_combi` for in-order sequences: every
nonempty admissible subsequence of the input with pairwise-distinct hex codes
summing to the target is emitted. -/
theorem cmc_complete {R : Option (List String)} {L : List ColorLayer} {H : ℕ}
    (s : List ColorLayer) (hne : s ≠ []) (hsub : List.Sublist s L)
    (hadm : ∀ l ∈ s, layerAdmissible R l = true)
    (hnodup : (s.map ColorLayer.hexCode).Nodup)
    (htot : (s.map ColorLayer.layer).sum = H) :
    ColorCombi.mk s ∈ createMultiCombi R L H := by
  unfold createMultiCombi
  refine List.mem_filter.mpr ⟨?_, by
    rw [totalLayers_mk, htot]
    exact beq_self_eq_true H⟩
  cases s with
  | nil => exact absurd rfl hne
  | cons l s2 =>
    obtain ⟨i, hget, hdrop⟩ := sublist_cons_exists hsub
    have hin : (i, l) ∈ L.enum := List.mk_mem_enum_iff_getElem?.mpr hget
    have hadml : layerAdmissible R l = true := hadm l (List.mem_cons_self _ _)
    cases s2 with
    | nil => exact cmcLoop_intro hin hadml (Or.inl rfl)
    | cons m rest =>
      have hlt : i + 1 < L.length := by
        by_contra hcon
        have hdn : L.drop (i + 1) = [] := by
          rw [List.drop_eq_nil_iff]
          omega
        rw [hdn] at hdrop
        have := List.sublist_nil.mp hdrop
        simp at this
      refine cmcLoop_intro hin hadml (Or.inr ⟨hlt, ?_⟩)
      have hx := cc_complete (m :: rest) L.length (ColorCombi.new l)
        (by simp) (hdrop.trans (List.drop_sublist _ _))
        (fun x hx => hadm x (List.mem_cons_of_mem _ hx))
        hnodup
        (by
          show (ColorCombi.mk [l]).totalLayers + _ = H
          rw [totalLayers_mk]
          simp only [List.map_cons, List.sum_cons] at htot ⊢
          simp only [List.map_nil, List.sum_nil]
          omega)
        (by
          have hlen := List.Sublist.length_le hsub
          show (ColorCombi.mk [l]).totalColors + _ ≤ L.length
          rw [totalColors_mk]
          simp only [List.length_cons, List.length_singleton, List.length_nil] at hlen ⊢
          omega)
        (by
          have hlen := List.Sublist.length_le hsub
          simp only [List.length_cons] at hlen ⊢
          omega)
      exact hx

/-- Claim C1, counterexample: on the input `[Red[3], Green[2]]` with target 5
and no restriction, the sequence `[Green[2], Red[3]]` has admissible layers,
pairwise-distinct hex codes and layer counts summing to 5, but the generator
emits only `[Red[3], Green[2]]` — not every such sequence is emitted. -/
theorem createMultiCombi_misses_out_of_order :
    ((createMultiCombi none [ColorLayer.fromCmyk "#FF0000" 3 0 1 1 0,
        ColorLayer.fromCmyk "#00FF00" 2 1 0 1 0] 5).map ColorCombi.layers
      = [[ColorLayer.fromCmyk "#FF0000" 3 0 1 1 0,
          ColorLayer.fromCmyk "#00FF00" 2 1 0 1 0]]) ∧
    (([ColorLayer.fromCmyk "#00FF00" 2 1 0 1 0,
        ColorLayer.fromCmyk "#FF0000" 3 0 1 1 0].map ColorLayer.hexCode).Nodup) ∧
    ([ColorLayer.fromCmyk "#00FF00" 2 1 0 1 0,
        ColorLayer.fromCmyk "#FF0000" 3 0 1 1 0].map ColorLayer.layer).sum = 5 ∧
    ColorCombi.mk [ColorLayer.fromCmyk "#00FF00" 2 1 0 1 0,
        ColorLayer.fromCmyk "#FF0000" 3 0 1 1 0]
      ∉ createMultiCombi none [ColorLayer.fromCmyk "#FF0000" 3 0 1 1 0,
          ColorLayer.fromCmyk "#00FF00" 2 1 0 1 0] 5 := by
  refine ⟨by decide, by decide, by decide, by decide⟩

/-- Claim C1 (amended): every combi emitted by `create_multi_combi` consists
of admissible input layers with pairwise-distinct hex codes and layer counts
summing exactly to the target; conversely every nonempty admissible sequence
with pairwise-distinct hex codes summing to the target *whose layers appear
in input order* (an in-order subsequence) is emitted.  (Out-of-order
sequences can be missed, per the counterexample.) -/
theorem createMultiCombi_spec (R : Option (List String)) (L : List ColorLayer)
    (H : ℕ) :
    (∀ x ∈ createMultiCombi R L H,
      (x.layers.map ColorLayer.hexCode).Nodup ∧ x.totalLayers = H ∧
        ∀ l ∈ x.layers, l ∈ L ∧ layerAdmissible R l = true) ∧
    (∀ s : List ColorLayer, s ≠ [] → List.Sublist s L →
      (∀ l ∈ s, layerAdmissible R l = true) →
      (s.map ColorLayer.hexCode).Nodup →
      (s.map ColorLayer.layer).sum = H →
      ColorCombi.mk s ∈ createMultiCombi R L H) :=
  ⟨cmc_sound, fun s h1 h2 h3 h4 h5 => cmc_complete s h1 h2 h3 h4 h5⟩

/-- Witness for C1: the in-order sequence `[Red[3], Green[2]]` is emitted on
the concrete input. -/
theorem createMultiCombi_spec_witness :
    ColorCombi.mk [ColorLayer.fromCmyk "#FF0000" 3 0 1 1 0,
        ColorLayer.fromCmyk "#00FF00" 2 1 0 1 0]
      ∈ createMultiCombi none [ColorLayer.fromCmyk "#FF0000" 3 0 1 1 0,
          ColorLayer.fromCmyk "#00FF00" 2 1 0 1 0] 5 :=
  (createMultiCombi_spec none
      [ColorLayer.fromCmyk "#FF0000" 3 0 1 1 0,
        ColorLayer.fromCmyk "#00FF00" 2 1 0 1 0] 5).2
    [ColorLayer.fromCmyk "#FF0000" 3 0 1 1 0,
      ColorLayer.fromCmyk "#00FF00" 2 1 0 1 0]
    (by decide) (by decide) (by decide) (by decide) (by decide)

/-- Claim C3, counterexample: on `[Red[1], Green[2], Blue[2]]` with target 5
the generator emits both `[Red,Green,Blue]` and `[Green,Red,Blue]` — two
combis with the same multiset of layers, so the enumeration is not
once-per-multiset (the recursion re-scans the whole list rather than indices
`i+1` upward). -/
theorem createMultiCombi_duplicate_multiset :
    ((createMultiCombi none [ColorLayer.fromCmyk "#FF0000" 1 0 1 1 0,
        ColorLayer.fromCmyk "#00FF00" 2 1 0 1 0,
        ColorLayer.fromCmyk "#0000FF" 2 1 1 0 0] 5).map ColorCombi.layers
      = [[ColorLayer.fromCmyk "#FF0000" 1 0 1 1 0,
          ColorLayer.fromCmyk "#00FF00" 2 1 0 1 0,
          ColorLayer.fromCmyk "#0000FF" 2 1 1 0 0],
         [ColorLayer.fromCmyk "#00FF00" 2 1 0 1 0,
          ColorLayer.fromCmyk "#FF0000" 1 0 1 1 0,
          ColorLayer.fromCmyk "#0000FF" 2 1 1 0 0]]) ∧
    (Multiset.ofList [ColorLayer.fromCmyk "#FF0000" 1 0 1 1 0,
        ColorLayer.fromCmyk "#00FF00" 2 1 0 1 0,
        ColorLayer.fromCmyk "#0000FF" 2 1 1 0 0]
      = Multiset.ofList [ColorLayer.fromCmyk "#00FF00" 2 1 0 1 0,
          ColorLayer.fromCmyk "#FF0000" 1 0 1 1 0,
          ColorLayer.fromCmyk "#0000FF" 2 1 1 0 0]) := by
  constructor
  · decide
  · exact Multiset.coe_eq_coe.mpr
      (List.Perm.swap (ColorLayer.fromCmyk "#00FF00" 2 1 0 1 0)
        (ColorLayer.fromCmyk "#FF0000" 1 0 1 1 0)
        [ColorLayer.fromCmyk "#0000FF" 2 1 1 0 0])

/-- Claim C3 (amended): expansion is not limited to indices `i+1` upward, so
a multiset can be enumerated more than once; what holds is that every emitted
combi has pairwise-distinct hex codes and exact total, and every admissible
distinct-hex multiset realizable in input order is enumerated *at least*
once. -/
theorem createMultiCombi_multiset_spec (R : Option (List String))
    (L : List ColorLayer) (H : ℕ) :
    (∀ x ∈ createMultiCombi R L H,
      (x.layers.map ColorLayer.hexCode).Nodup ∧ x.totalLayers = H) ∧
    (∀ s : List ColorLayer, s ≠ [] → List.Sublist s L →
      (∀ l ∈ s, layerAdmissible R l = true) →
      (s.map ColorLayer.hexCode).Nodup →
      (s.map ColorLayer.layer).sum = H →
      ∃ x ∈ createMultiCombi R L H,
        Multiset.ofList x.layers = Multiset.ofList s) := by
  constructor
  · intro x hx
    have h := cmc_sound x hx
    exact ⟨h.1, h.2.1⟩
  · intro s h1 h2 h3 h4 h5
    exact ⟨ColorCombi.mk s, cmc_complete s h1 h2 h3 h4 h5, rfl⟩

/-- Witness for C3: the multiset `{Red[3], Green[2]}` is enumerated on the
concrete input. -/
theorem createMultiCombi_multiset_spec_witness :
    ∃ x ∈ createMultiCombi none [ColorLayer.fromCmyk "#FF0000" 3 0 1 1 0,
        ColorLayer.fromCmyk "#00FF00" 2 1 0 1 0] 5,
      Multiset.ofList x.layers
        = Multiset.ofList [ColorLayer.fromCmyk "#FF0000" 3 0 1 1 0,
            ColorLayer.fromCmyk "#00FF00" 2 1 0 1 0] :=
  (createMultiCombi_multiset_spec none
      [ColorLayer.fromCmyk "#FF0000" 3 0 1 1 0,
        ColorLayer.fromCmyk "#00FF00" 2 1 0 1 0] 5).2
    [ColorLayer.fromCmyk "#FF0000" 3 0 1 1 0,
      ColorLayer.fromCmyk "#00FF00" 2 1 0 1 0]
    (by decide) (by decide) (by decide) (by decide) (by decide)

/-! ## Theorems: factorization (C5) -/

/-- Replacing the final element of a hex-distinct chain by one with the same
hex code preserves the chain. -/
theorem chain'_replace_last {done : List ColorLayer} {a b : ColorLayer}
    (hhex : a.hexCode = b.hexCode)
    (h : List.Chain' (fun x y => x.hexCode ≠ y.hexCode) (done ++ [a])) :
    List.Chain' (fun x y => x.hexCode ≠ y.hexCode) (done ++ [b]) := by
  rw [List.chain'_append] at h ⊢
  refine ⟨h.1, List.chain'_singleton _, ?_⟩
  intro x hx y hy
  simp only [List.head?_cons, Option.mem_def, Option.some.injEq] at hy
  subst hy
  have := h.2.2 x hx a (by simp)
  rw [hhex] at this
  exact this

/-- Extending a hex-distinct chain by a fresh element. -/
theorem chain'_snoc {xs : List ColorLayer} {last a : ColorLayer}
    (h : List.Chain' (fun x y => x.hexCode ≠ y.hexCode) (xs ++ [last]))
    (hne : last.hexCode ≠ a.hexCode) :
    List.Chain' (fun x y => x.hexCode ≠ y.hexCode) ((xs ++ [last]) ++ [a]) := by
  rw [List.chain'_append]
  refine ⟨h, List.chain'_singleton _, ?_⟩
  intro x hx y hy
  simp only [List.head?_cons, Option.mem_def, Option.some.injEq] at hy
  subst hy
  have hx2 : last = x := by
    rw [List.getLast?_concat] at hx
    simpa using hx
  rw [← hx2]
  exact hne

/-- The spec-side walk preserves the hex-distinct chain invariant of its
accumulator. -/
theorem specWalk_chain :
    ∀ (ls done : List ColorLayer) (last : ColorLayer),
      List.Chain' (fun x y => x.hexCode ≠ y.hexCode) (done ++ [last]) →
      List.Chain' (fun x y => x.hexCode ≠ y.hexCode) (specWalk done last ls) := by
  intro ls
  induction ls with
  | nil => intro done last h; exact h
  | cons l ls ih =>
    intro done last h
    rw [specWalk]
    split_ifs with hhex
    · exact ih done _ (chain'_replace_last (by exact hhex ▸ rfl) h)
    · exact ih (done ++ [last]) l (chain'_snoc h hhex)

/-- The spec-side walk preserves the total layer count. -/
theorem specWalk_sum :
    ∀ (ls done : List ColorLayer) (last : ColorLayer),
      ((specWalk done last ls).map ColorLayer.layer).sum
        = ((done ++ [last]).map ColorLayer.layer).sum
          + (ls.map ColorLayer.layer).sum := by
  intro ls
  induction ls with
  | nil => intro done last; simp [specWalk]
  | cons l ls ih =>
    intro done last
    rw [specWalk]
    split_ifs with hhex
    · rw [ih]
      simp only [List.map_append, List.sum_append, List.map_cons, List.sum_cons,
        List.map_nil, List.sum_nil]
      omega
    · rw [ih]
      simp only [List.map_append, List.sum_append, List.map_cons, List.sum_cons,
        List.map_nil, List.sum_nil]
      omega

/-- Under a CMYK assignment that is a function of the hex code, the source
loop agrees with the spec-side walk (the `combine_with` panic cannot
trigger). -/
theorem factorizeAux_eq (f : String → Cmyk) :
    ∀ (ls done : List ColorLayer) (last : ColorLayer),
      (∀ l ∈ ls, l.cmyk = f l.hexCode) → last.cmyk = f last.hexCode →
      factorizeAux done last ls = some (specWalk done last ls) := by
  intro ls
  induction ls with
  | nil => intro done last _ _; rfl
  | cons l ls ih =>
    intro done last hall hlast
    rw [factorizeAux, specWalk]
    split_ifs with hhex
    · have hcmyk : last.cmyk = l.cmyk := by
        rw [hlast, hhex, hall l (List.mem_cons_self _ _)]
      have hcomb : last.combineWith l
          = some ⟨last.hexCode, last.layer + l.layer, last.cmyk⟩ := by
        unfold ColorLayer.combineWith
        rw [if_pos ⟨hhex, hcmyk⟩]
      rw [hcomb]
      exact ih done _ (fun x hx => hall x (List.mem_cons_of_mem _ hx))
        (by simpa using hlast)
    · exact ih (done ++ [last]) l (fun x hx => hall x (List.mem_cons_of_mem _ hx))
        (hall l (List.mem_cons_self _ _))

/-- Claim C5, counterexample: `factorize` on the combi
`[#FF0000[2] (cmyk 0,1,1,0), #FF0000[3] (cmyk 0,1,0,0)]` does not fold the
equal-hex run — the `combine_with` assertion on differing CMYK panics
(modelled as `none`), so the fold does not happen for every combi. -/
theorem factorize_panics_on_cmyk_mismatch :
    (ColorCombi.mk [ColorLayer.fromCmyk "#FF0000" 2 0 1 1 0,
      ColorLayer.fromCmyk "#FF0000" 3 0 1 0 0]).factorize = none := by
  decide

/-- Claim C5 (amended): for a combi whose equal-hex layers carry equal CMYK
(the situation `combine_with` asserts; true of all loader-built combis, whose
runs arise from the single white filament), `factorize` succeeds, folds each
run of adjacent equal-hex layers into one layer with summed count (the
spec-side walk `specFactorize`), leaves no two adjacent layers sharing a hex
code, and preserves the total layer count.  Non-adjacent duplicates are
untouched. -/
theorem factorize_spec (c : ColorCombi)
    (hcons : ∀ l1 ∈ c.layers, ∀ l2 ∈ c.layers,
      l1.hexCode = l2.hexCode → l1.cmyk = l2.cmyk) :
    ∃ c2, c.factorize = some c2 ∧ c2.layers = specFactorize c.layers ∧
      List.Chain' (fun x y => x.hexCode ≠ y.hexCode) c2.layers ∧
      c2.totalLayers = c.totalLayers := by
  classical
  obtain ⟨lys⟩ := c
  cases lys with
  | nil => exact ⟨⟨[]⟩, rfl, rfl, List.chain'_nil, rfl⟩
  | cons l ls =>
    have hex : ∀ x ∈ l :: ls, ∃ y, y ∈ l :: ls ∧ y.hexCode = x.hexCode :=
      fun x hx => ⟨x, hx, rfl⟩
    set f : String → Cmyk := fun h =>
      if hx : ∃ y, y ∈ l :: ls ∧ y.hexCode = h then hx.choose.cmyk
      else Cmyk.new 0 0 0 0 with hf
    have hfprop : ∀ x ∈ l :: ls, x.cmyk = f x.hexCode := by
      intro x hx
      have hxx : ∃ y, y ∈ l :: ls ∧ y.hexCode = x.hexCode := ⟨x, hx, rfl⟩
      rw [hf]
      simp only [dif_pos hxx]
      obtain ⟨hmem, heq⟩ := hxx.choose_spec
      exact (hcons hxx.choose hmem x hx heq).symm
    have haux := factorizeAux_eq f ls [] l
      (fun x hx => hfprop x (List.mem_cons_of_mem _ hx))
      (hfprop l (List.mem_cons_self _ _))
    refine ⟨⟨specWalk [] l ls⟩, ?_, rfl, ?_, ?_⟩
    · show (factorizeAux [] l ls).map ColorCombi.mk = _
      rw [haux]
      rfl
    · exact specWalk_chain ls [] l (List.chain'_singleton _)
    · show ((specWalk [] l ls).map ColorLayer.layer).sum = _
      rw [specWalk_sum]
      show _ = (ColorCombi.mk (l :: ls)).totalLayers
      rw [totalLayers_mk]
      simp

/-- Witness for C5: a concrete combi with an adjacent white run folds into a
single white layer of summed count. -/
theorem factorize_spec_witness :
    ∃ c2, (ColorCombi.mk [ColorLayer.fromCmyk "#FFFFFF" 2 0 0 0 0,
        ColorLayer.fromCmyk "#FFFFFF" 3 0 0 0 0,
        ColorLayer.fromCmyk "#FF0000" 1 0 1 1 0]).factorize = some c2 ∧
      c2.layers = specFactorize [ColorLayer.fromCmyk "#FFFFFF" 2 0 0 0 0,
        ColorLayer.fromCmyk "#FFFFFF" 3 0 0 0 0,
        ColorLayer.fromCmyk "#FF0000" 1 0 1 1 0] ∧
      List.Chain' (fun x y => x.hexCode ≠ y.hexCode) c2.layers ∧
      c2.totalLayers = (ColorCombi.mk [ColorLayer.fromCmyk "#FFFFFF" 2 0 0 0 0,
        ColorLayer.fromCmyk "#FFFFFF" 3 0 0 0 0,
        ColorLayer.fromCmyk "#FF0000" 1 0 1 1 0]).totalLayers :=
  factorize_spec _ (by decide)

/-! ## Theorems: loader slot grouping (C2, C6) -/

/-- Concatenating two combis adds their total layer counts. -/
theorem combineWithCombi_total (c d : ColorCombi) :
    (c.combineWithCombi d).totalLayers = c.totalLayers + d.totalLayers := by
  show ((c.layers ++ d.layers).map ColorLayer.layer).sum = _
  rw [List.map_append, List.sum_append]
  rfl

/-- The progressive cross-group product adds one group budget per remaining
group. -/
theorem progressiveCombine_total {H : ℕ} :
    ∀ (gs : List (List ColorCombi)) (acc : List ColorCombi) (k : ℕ),
      (∀ c ∈ acc, c.totalLayers = k) →
      (∀ g ∈ gs, ∀ c ∈ g, c.totalLayers = H) →
      ∀ c ∈ progressiveCombine acc gs, c.totalLayers = k + gs.length * H := by
  intro gs
  induction gs with
  | nil =>
    intro acc k hacc _ c hc
    simpa using hacc c hc
  | cons g gs ih =>
    intro acc k hacc hgs c hc
    rw [progressiveCombine] at hc
    have hstep : ∀ x ∈ acc.flatMap fun a => g.map fun b => a.combineWithCombi b,
        x.totalLayers = k + H := by
      intro x hx
      rw [List.mem_flatMap] at hx
      obtain ⟨a, ha, hx2⟩ := hx
      rw [List.mem_map] at hx2
      obtain ⟨b, hb, rfl⟩ := hx2
      rw [combineWithCombi_total, hacc a ha, hgs g (List.mem_cons_self _ _) b hb]
    have := ih _ (k + H) hstep
      (fun g2 hg2 => hgs g2 (List.mem_cons_of_mem _ hg2)) c hc
    rw [this, List.length_cons]
    ring

/-- Inversion of `ColorLayer.combine_with`. -/
theorem combineWith_some {a b m : ColorLayer} (h : a.combineWith b = some m) :
    m.layer = a.layer + b.layer := by
  unfold ColorLayer.combineWith at h
  split_ifs at h
  rw [← Option.some.injEq _ _ |>.mp h]

/-- The factorize loop preserves the total layer count whenever it succeeds. -/
theorem factorizeAux_sum :
    ∀ (ls done : List ColorLayer) (last : ColorLayer) (res : List ColorLayer),
      factorizeAux done last ls = some res →
      (res.map ColorLayer.layer).sum
        = ((done ++ [last]).map ColorLayer.layer).sum
          + (ls.map ColorLayer.layer).sum := by
  intro ls
  induction ls with
  | nil =>
    intro done last res h
    rw [factorizeAux] at h
    rw [← Option.some.injEq _ _ |>.mp h]
    simp
  | cons l ls ih =>
    intro done last res h
    rw [factorizeAux] at h
    split_ifs at h with hhex
    · rcases hcomb : last.combineWith l with _ | mrg
      · rw [hcomb] at h
        exact absurd h (by simp)
      · rw [hcomb] at h
        simp only [Option.some_bind] at h
        have := ih done mrg res h
        rw [this]
        have hm := combineWith_some hcomb
        simp only [List.map_append, List.sum_append, List.map_cons, List.sum_cons,
          List.map_nil, List.sum_nil] at *
        omega
    · have := ih (done ++ [last]) l res h
      rw [this]
      simp only [List.map_append, List.sum_append, List.map_cons, List.sum_cons,
        List.map_nil, List.sum_nil]
      omega

/-- `factorize` preserves the total layer count whenever it succeeds. -/
theorem factorize_total {c c2 : ColorCombi} (h : c.factorize = some c2) :
    c2.totalLayers = c.totalLayers := by
  obtain ⟨lys⟩ := c
  cases lys with
  | nil =>
    have h2 : (some (ColorCombi.mk []) : Option ColorCombi) = some c2 := h
    rw [← Option.some.injEq _ _ |>.mp h2]
  | cons l ls =>
    have h2 : Option.map ColorCombi.mk (factorizeAux [] l ls) = some c2 := h
    rcases haux : factorizeAux [] l ls with _ | res
    · rw [haux] at h2
      exact absurd h2 (by simp)
    · rw [haux] at h2
      rw [Option.map_some'] at h2
      rw [← Option.some.injEq _ _ |>.mp h2]
      have := factorizeAux_sum ls [] l res haux
      rw [totalLayers_mk, this, totalLayers_mk]
      simp

/-- The white-layer reordering is a three-way partition, so it preserves the
total layer count. -/
theorem owl_fold_sum (p : ℕ) :
    ∀ (ls b m t : List ColorLayer) (cnt : ℕ),
      ((((ls.foldl (owlStep p) (b, m, t, cnt)).1
          ++ (ls.foldl (owlStep p) (b, m, t, cnt)).2.1)
          ++ (ls.foldl (owlStep p) (b, m, t, cnt)).2.2.1).map ColorLayer.layer).sum
        = (((b ++ m) ++ t).map ColorLayer.layer).sum
          + (ls.map ColorLayer.layer).sum := by
  intro ls
  induction ls with
  | nil => intro b m t cnt; simp
  | cons l ls ih =>
    intro b m t cnt
    rw [List.foldl_cons]
    by_cases h1 : l.hexCode = "#FFFFFF"
    · by_cases h2 : cnt ≤ p
      · rw [show owlStep p (b, m, t, cnt) l = (b ++ [l], m, t, cnt + l.layer) by
          unfold owlStep; dsimp only; rw [if_pos h1, if_pos h2]]
        rw [ih]
        simp only [List.map_append, List.sum_append, List.map_cons, List.sum_cons,
          List.map_nil, List.sum_nil]
        omega
      · rw [show owlStep p (b, m, t, cnt) l = (b, m, t ++ [l], cnt + l.layer) by
          unfold owlStep; dsimp only; rw [if_pos h1, if_neg h2]]
        rw [ih]
        simp only [List.map_append, List.sum_append, List.map_cons, List.sum_cons,
          List.map_nil, List.sum_nil]
        omega
    · rw [show owlStep p (b, m, t, cnt) l = (b, m ++ [l], t, cnt + l.layer) by
        unfold owlStep; dsimp only; rw [if_neg h1]]
      rw [ih]
      simp only [List.map_append, List.sum_append, List.map_cons, List.sum_cons,
        List.map_nil, List.sum_nil]
      omega

/-- `optimize_white_layers` preserves the total layer count. -/
theorem owl_total (c : ColorCombi) (p : ℕ) :
    (c.optimizeWhiteLayers p).totalLayers = c.totalLayers := by
  show ((((c.layers.foldl (owlStep p) ([], [], [], 0)).1
      ++ (c.layers.foldl (owlStep p) ([], [], [], 0)).2.1
      ++ (c.layers.foldl (owlStep p) ([], [], [], 0)).2.2.1).map ColorLayer.layer)).sum = _
  rw [owl_fold_sum]
  simp only [List.append_nil, List.map_nil, List.sum_nil, Nat.zero_add]
  rfl

/-- Insertion into the association map only stores the given value or keeps
old ones. -/
theorem insertAssoc_prop (P : ColorCombi → Prop) {m : List (Rgb × ColorCombi)}
    {k : Rgb} {v : ColorCombi} (hm : ∀ p ∈ m, P p.2) (hv : P v) :
    ∀ p ∈ insertAssoc m k v, P p.2 := by
  intro p hp
  unfold insertAssoc at hp
  split_ifs at hp
  · rw [List.mem_map] at hp
    obtain ⟨q, hq, hpq⟩ := hp
    by_cases hqk : q.1 = k
    · rw [if_pos hqk] at hpq
      rw [← hpq]
      exact hv
    · rw [if_neg hqk] at hpq
      rw [← hpq]
      exact hm q hq
  · rcases List.mem_append.mp hp with hp1 | hp2
    · exact hm p hp1
    · rcases List.mem_singleton.mp hp2 with rfl
      exact hv

/-- The insertion fold only stores combis from the given list. -/
theorem foldl_insert_prop (P : ColorCombi → Prop) :
    ∀ (cs : List ColorCombi) (m : List (Rgb × ColorCombi)),
      (∀ p ∈ m, P p.2) → (∀ c ∈ cs, P c) →
      ∀ p ∈ cs.foldl (fun m c => insertAssoc m c.computeRgb c) m, P p.2 := by
  intro cs
  induction cs with
  | nil => intro m hm _ p hp; exact hm p hp
  | cons c cs ih =>
    intro m hm hcs p hp
    rw [List.foldl_cons] at hp
    exact ih _ (insertAssoc_prop P hm (hcs c (List.mem_cons_self _ _)))
      (fun x hx => hcs x (List.mem_cons_of_mem _ hx)) p hp

/-- Inversion of an option-valued `mapM`. -/
theorem mapM_option_inv {α β : Type} (f : α → Option β) :
    ∀ (l : List α) (out : List β), l.mapM f = some out →
      List.Forall₂ (fun a b => f a = some b) l out := by
  intro l
  induction l with
  | nil =>
    intro out h
    have : out = [] := by
      have h2 : (some [] : Option (List β)) = some out := h ▸ rfl
      simpa using h2.symm
    subst this
    exact List.Forall₂.nil
  | cons a as ih =>
    intro out h
    rw [List.mapM_cons] at h
    rcases hfa : f a with _ | b
    · rw [hfa] at h
      simp at h
    · rw [hfa] at h
      rcases hrest : as.mapM f with _ | bs
      · rw [hrest] at h
        simp at h
      · rw [hrest] at h
        simp only [Option.bind_eq_bind, Option.some_bind, Option.pure_def,
          Option.some.injEq] at h
        subst h
        exact List.Forall₂.cons hfa (ih bs hrest)

/-- Claim C2: whenever the loader's group computation succeeds, every
`ColorCombi` stored in the RGB-to-combi map has total layer count equal to
`nb_layers · nb_groups`: per-group combis carry `nb_layers` each, the
progressive cross-group product adds one budget per group, and
factorization, insertion and the white reordering preserve totals. -/
theorem computeColorsByGroup_total (colorLayers : List ColorLayer)
    (hexColorList : List String) (cfg : PaletteLoaderConfig) (g : ℕ)
    (qcs : List (Rgb × ColorCombi))
    (h : computeColorsByGroup colorLayers hexColorList cfg = some (g, qcs)) :
    ∀ p ∈ qcs, p.2.totalLayers = cfg.nbLayers * g := by
  unfold computeColorsByGroup at h
  simp only [] at h
  split_ifs at h with hpanic
  split at h
  next => exact absurd h (by simp)
  next first restGroups heq =>
      rcases hfact : (progressiveCombine first restGroups).mapM ColorCombi.factorize
        with _ | factored
      · rw [hfact] at h
        exact absurd h (by simp)
      · rw [hfact, Option.map_some', Option.some.injEq, Prod.mk.injEq] at h
        obtain ⟨hg, hq⟩ := h
        subst hg
        subst hq
        intro p hp
        rw [List.mem_map] at hp
        obtain ⟨q, hq2, rfl⟩ := hp
        show (q.2.optimizeWhiteLayers _).totalLayers = _
        rw [owl_total]
        have hgl : ∀ gl ∈ first :: restGroups, ∀ c ∈ gl,
            c.totalLayers = cfg.nbLayers := by
          intro gl hgl c hc
          rw [← heq] at hgl
          obtain ⟨grp, _, hfe⟩ := List.mem_map.mp hgl
          rw [← hfe] at hc
          exact (cmc_sound c hc).2.1
        have hprog : ∀ c ∈ progressiveCombine first restGroups,
            c.totalLayers = cfg.nbLayers + restGroups.length * cfg.nbLayers :=
          progressiveCombine_total restGroups first cfg.nbLayers
            (hgl first (List.mem_cons_self _ _))
            (fun g2 hg2 => hgl g2 (List.mem_cons_of_mem _ hg2))
        have hfac2 := mapM_option_inv ColorCombi.factorize _ _ hfact
        have hfactored : ∀ c ∈ factored,
            c.totalLayers = cfg.nbLayers + restGroups.length * cfg.nbLayers := by
          intro c hc
          obtain ⟨c1, hc1, hrel⟩ := forall2_mem_right hfac2 c hc
          rw [factorize_total hrel]
          exact hprog c1 hc1
        have hq3 := foldl_insert_prop
          (fun c => c.totalLayers = cfg.nbLayers + restGroups.length * cfg.nbLayers)
          factored [] (fun p hp => absurd hp (List.not_mem_nil _)) hfactored q hq2
        have hlen : nbGroupsOf (nbColorPoolOf cfg (workingHexOf hexColorList))
            (workingHexOf hexColorList) = restGroups.length + 1 := by
          have hl := congrArg List.length heq
          simp only [List.length_map, List.length_cons, hexColorGroupsOf,
            List.length_range] at hl
          omega
        rw [hq3, hlen]
        ring

/-- Witness for C2: a single white filament in additive mode yields one group
and one stored combi of total layer count `5 · 1`. -/
theorem computeColorsByGroup_total_witness :
    (ColorCombi.mk [ColorLayer.fromCmyk "#FFFFFF" 5 0 0 0 0]).totalLayers
      = (5 : ℕ) * 1 :=
  computeColorsByGroup_total [ColorLayer.fromCmyk "#FFFFFF" 5 0 0 0 0] ["#FFFFFF"]
    ⟨5, PixelCreationMethod.Additive, 0, ColorDistanceMethod.CieLab⟩ 1
    [((ColorCombi.mk [ColorLayer.fromCmyk "#FFFFFF" 5 0 0 0 0]).computeRgb,
      ColorCombi.mk [ColorLayer.fromCmyk "#FFFFFF" 5 0 0 0 0])] rfl
    ((ColorCombi.mk [ColorLayer.fromCmyk "#FFFFFF" 5 0 0 0 0]).computeRgb,
      ColorCombi.mk [ColorLayer.fromCmyk "#FFFFFF" 5 0 0 0 0])
    (List.mem_singleton.mpr rfl)

/-- Claim C6: in additive mode with `color_number = 1` and at least one
active non-white filament, the slot-grouping computation divides by zero
(`i / nb_color_pool` with `nb_color_pool = 0`) and panics instead of falling
back to a single group — the loading does not proceed past the grouping
step. -/
theorem computeColorsByGroup_color_number_one_panics :
    computeColorsByGroup []
      ["#FF0000", "#FFFFFF"]
      ⟨5, PixelCreationMethod.Additive, 1, ColorDistanceMethod.CieLab⟩ = none := by
  decide

end PixEstl
